import Mathlib

/-!
Shallow embedding of the chunk orchestrator core
(`src/agents/chunk_orchestrator/chunk_agent.py`): the windowing chunker
(semantic-element, plain-text and per-page paths), the table chunk builder,
metadata/fingerprint assembly, and the version ledger (classification and
recording), together with the theorems settling the specification claims.

Python strings are embedded as `List Char` (`Text`); Python dict-based
records become structures with `Option` fields where the source uses
`dict.get`; the external tokenizer `count_tokens`, the `uuid5` chunk-id
hash and the `sha256` content hash are abstract function parameters.
The SQLite ledger becomes an association list keyed by chunk id; a Python
`KeyError` (a chunk dict lacking the `'checksum'` key) is an `Except`
error.
-/

abbrev Text := List Char

/-- Python `str.split()` helper: accumulates the current word (reversed)
and flushes it at whitespace boundaries and at the end. -/
def splitWsAux : Text → Text → List Text
  | [], acc => if acc = [] then [] else [acc.reverse]
  | c :: cs, acc =>
    if c.isWhitespace then
      (if acc = [] then splitWsAux cs [] else acc.reverse :: splitWsAux cs [])
    else splitWsAux cs (c :: acc)

/-- Python `str.split()` (split on whitespace runs, dropping empties). -/
def splitWs (t : Text) : List Text := splitWsAux t []

/-- The whitespace word-count tokenizer: a concrete deterministic
`tokenCount` used to instantiate the abstract tokenizer. -/
def wcount (t : Text) : Nat := (splitWs t).length

/-- Python `str.strip()`. -/
def stripWs (t : Text) : Text :=
  ((t.dropWhile Char.isWhitespace).reverse.dropWhile Char.isWhitespace).reverse

/-- Python `text.split('\n\n')` (split on the exact two-character
separator, keeping empty pieces, non-overlapping, left to right). -/
def splitNNAux : Text → Text → List Text
  | [], acc => [acc.reverse]
  | '\n' :: '\n' :: rest, acc => acc.reverse :: splitNNAux rest []
  | c :: rest, acc => splitNNAux rest (c :: acc)

def splitNN (t : Text) : List Text := splitNNAux t []

/-- Python `sep.join(parts)`. -/
def joinSep (sep : Text) : List Text → Text
  | [] => []
  | [x] => x
  | x :: y :: xs => x ++ sep ++ joinSep sep (y :: xs)

def spSep : Text := [' ']
def nnSep : Text := ['\n', '\n']
def nlSep : Text := ['\n']

def natToText (n : Nat) : Text := (toString n).data

def textLower (t : Text) : Text := t.map Char.toLower

/-- Python `needle in hay` on strings (contiguous substring test). -/
def isInfixT (needle : Text) : Text → Bool
  | [] => needle.isPrefixOf []
  | c :: cs => needle.isPrefixOf (c :: cs) || isInfixT needle cs

/-- Keyword set of `_detect_financial_metrics`. -/
def financialKeywords : List Text :=
  ["nav".data, "aum".data, "return".data, "cagr".data, "yield".data,
   "ratio".data, "crore".data, "lakh".data, "rupee".data, "%".data,
   "performance".data]

/-- `_detect_financial_metrics`: case-insensitive substring scan. -/
def detectFinancialMetrics (content : Text) : Bool :=
  financialKeywords.any (fun k => isInfixT k (textLower content))

/-- Allow-list of `_create_chunk_dict`'s extracted-data inheritance. -/
def whitelistKeys : List Text :=
  ["fund_name".data, "nav_value".data, "aum".data, "risk_profile".data]

/-- A parsed table (`document['tables'][i]`). `markdown`/`json` are
`Option` because the source reads them with `dict.get`. -/
structure Table where
  markdown : Option Text
  json : Option Text
  rows : Option Nat
  columns : Option Nat
deriving DecidableEq

structure SemanticElement where
  text : Text
deriving DecidableEq

structure Page where
  page_number : Nat
  elements : List SemanticElement
deriving DecidableEq

/-- A parsed document as consumed by `create_chunks`.  List fields model
Python truthiness: an absent key and an empty list behave identically. -/
structure Document where
  file_type : Option Text
  checksum : Option Text
  source_file : Option Text
  docSection : Option Text
  semantic_elements : List SemanticElement
  plain_text : Text
  tables : List Table
  pages : List Page
  extracted_data : List (Text × Text)
deriving DecidableEq

/-- Chunk metadata record.  Text chunks and table chunks populate
different subsets of the fields; absent keys are `none`. -/
structure ChunkMeta where
  chunk_id : Option Text
  parent_document_id : Option Text
  source_url : Text
  docSection : Option Text
  file_type : Option Text
  chunk_index : Nat
  created_at : Text
  has_table : Bool
  has_financial_metrics : Option Bool
  table_index : Option Nat
  table_rows : Option Nat
  table_columns : Option Nat
  page_number : Option Nat
  extracted : List (Text × Text)
deriving DecidableEq

/-- A produced chunk.  `checksum` is `Option` because table chunks are
built without a `'checksum'` key in the source. -/
structure Chunk where
  chunk_id : Text
  content : Text
  metadata : ChunkMeta
  checksum : Option Text
  token_count : Nat
deriving DecidableEq

/-- Chunking configuration (`chunking.yml`): `max_tokens_per_chunk`,
`overlap.percentage`, `table_handling.preserve_verbatim`. -/
structure Config where
  maxTokensPerChunk : Nat
  overlapPercentage : Nat
  preserveVerbatim : Bool
deriving DecidableEq

/-- `_generate_chunk_id`: `uuid.uuid5(NAMESPACE_DNS, f"{doc_id}_{key}")`,
with the uuid5 name-hash abstracted as a function parameter. -/
def genChunkId (uuid5 : Text → Text) (doc : Document) (key : Text) : Text :=
  uuid5 ((doc.checksum.getD []) ++ ('_' :: key))

/-- `_create_chunk_dict`: text-chunk assembly with metadata, sha256
content fingerprint and token count. -/
def createChunkDict (tc : Text → Nat) (uuid5 sha256 : Text → Text)
    (now : Text) (content : Text) (chunkIndex : Nat) (doc : Document)
    (pageNum : Option Nat) : Chunk :=
  let cid := genChunkId uuid5 doc (natToText chunkIndex)
  { chunk_id := cid
    content := content
    metadata :=
      { chunk_id := some cid
        parent_document_id := doc.checksum
        source_url := doc.source_file.getD []
        docSection := doc.docSection
        file_type := doc.file_type
        chunk_index := chunkIndex
        created_at := now
        has_table := false
        has_financial_metrics := some (detectFinancialMetrics content)
        table_index := none
        table_rows := none
        table_columns := none
        page_number := pageNum
        extracted := doc.extracted_data.filter (fun kv => kv.1 ∈ whitelistKeys) }
    checksum := some (sha256 content)
    token_count := tc content }

/-- `_create_table_chunks`: one verbatim chunk per table.  Note: the
source builds the table chunk dict without a `'checksum'` key. -/
def createTableChunks (tc : Text → Nat) (uuid5 : Text → Text) (now : Text)
    (tables : List Table) (doc : Document) : List Chunk :=
  tables.enum.map (fun it =>
    let content := it.2.markdown.getD (it.2.json.getD [])
    { chunk_id := genChunkId uuid5 doc ("table_".data ++ natToText it.1)
      content := content
      metadata :=
        { chunk_id := none
          parent_document_id := doc.checksum
          source_url := doc.source_file.getD []
          docSection := doc.docSection
          file_type := doc.file_type
          chunk_index := it.1
          created_at := now
          has_table := true
          has_financial_metrics := none
          table_index := some it.1
          table_rows := it.2.rows
          table_columns := it.2.columns
          page_number := none
          extracted := [] }
      checksum := none
      token_count := tc content })

/-- `_get_overlap_text`: trailing words of the flushed window,
approximating half the configured overlap token budget. -/
def getOverlapText (ot : Nat) (chunks : List Text) : Text :=
  let combined := joinSep spSep chunks
  let words := splitWs combined
  let ow := max 1 (ot / 2)
  if words.length > ow then joinSep spSep (words.drop (words.length - ow))
  else combined

/-- Loop state of `_split_large_text`. -/
structure SplitState where
  chunks : List Text
  cur : List Text
  curTok : Nat
deriving DecidableEq

/-- One iteration of `_split_large_text`'s word loop. -/
def splitStep (tc : Text → Nat) (maxT ot : Nat) (st : SplitState)
    (w : Text) : SplitState :=
  let wt := tc w
  if st.curTok + wt ≤ maxT then
    ⟨st.chunks, st.cur ++ [w], st.curTok + wt⟩
  else
    let chunks := st.chunks ++ [joinSep spSep st.cur]
    let ow := st.cur.length * ot / maxT
    let cur := if ow ≠ 0 then st.cur.drop (st.cur.length - ow) ++ [w] else [w]
    ⟨chunks, cur, tc (joinSep spSep cur)⟩

/-- `_split_large_text`: word-greedy splitting of an oversized unit,
with word-level overlap between successive sub-chunks. -/
def splitLargeText (tc : Text → Nat) (maxT ot : Nat) (text : Text) :
    List Text :=
  let st := (splitWs text).foldl (splitStep tc maxT ot) ⟨[], [], 0⟩
  if st.cur ≠ [] then st.chunks ++ [joinSep spSep st.cur] else st.chunks

/-- Loop state of `_chunk_semantic_elements`. -/
structure SemState where
  chunks : List Chunk
  cur : List Text
  curTok : Nat
  idx : Nat
deriving DecidableEq

/-- One iteration of `_chunk_semantic_elements`'s element loop. -/
def semStep (tc : Text → Nat) (uuid5 sha256 : Text → Text) (now : Text)
    (maxT ot : Nat) (doc : Document) (st : SemState)
    (elem : SemanticElement) : SemState :=
  let t := elem.text
  let et := tc t
  if et > maxT then
    let st1 : SemState :=
      if st.cur ≠ [] then
        ⟨st.chunks ++
          [createChunkDict tc uuid5 sha256 now (joinSep spSep st.cur) st.idx doc none],
         [], 0, st.idx + 1⟩
      else st
    (splitLargeText tc maxT ot t).foldl
      (fun s txt =>
        ⟨s.chunks ++ [createChunkDict tc uuid5 sha256 now txt s.idx doc none],
         s.cur, s.curTok, s.idx + 1⟩) st1
  else if st.curTok + et ≤ maxT then
    ⟨st.chunks, st.cur ++ [t], st.curTok + et, st.idx⟩
  else
    let chunks := st.chunks ++
      [createChunkDict tc uuid5 sha256 now (joinSep spSep st.cur) st.idx doc none]
    let ov := getOverlapText ot st.cur
    let cur := if ov ≠ [] then [ov, t] else [t]
    ⟨chunks, cur, tc (joinSep spSep cur), st.idx + 1⟩

/-- `_chunk_semantic_elements`: windowing over semantic elements. -/
def chunkSemanticElements (tc : Text → Nat) (uuid5 sha256 : Text → Text)
    (now : Text) (maxT ot : Nat) (elems : List SemanticElement)
    (doc : Document) : List Chunk :=
  let st := elems.foldl (semStep tc uuid5 sha256 now maxT ot doc) ⟨[], [], 0, 0⟩
  if st.cur ≠ [] then
    st.chunks ++
      [createChunkDict tc uuid5 sha256 now (joinSep spSep st.cur) st.idx doc none]
  else st.chunks

/-- Loop state of the inline word-split loop of `_chunk_plain_text`. -/
structure WordState where
  chunks : List Chunk
  idx : Nat
  wchunk : List Text
  wtok : Nat
deriving DecidableEq

/-- One iteration of `_chunk_plain_text`'s inline word loop (the
oversized-paragraph branch).  Note: the re-seeded word chunk is `[word]`
alone — this path carries no overlap. -/
def wordStep (tc : Text → Nat) (uuid5 sha256 : Text → Text) (now : Text)
    (maxT : Nat) (doc : Document) (pageNum : Option Nat) (st : WordState)
    (w : Text) : WordState :=
  let wt := tc (w ++ spSep)
  if st.wtok + wt ≤ maxT then
    ⟨st.chunks, st.idx, st.wchunk ++ [w], st.wtok + wt⟩
  else
    if st.wchunk ≠ [] then
      ⟨st.chunks ++
        [createChunkDict tc uuid5 sha256 now (joinSep spSep st.wchunk) st.idx doc pageNum],
       st.idx + 1, [w], wt⟩
    else ⟨st.chunks, st.idx, [w], wt⟩

/-- Loop state of `_chunk_plain_text`'s paragraph loop. -/
structure PlainState where
  chunks : List Chunk
  cur : List Text
  curTok : Nat
  idx : Nat
deriving DecidableEq

/-- One iteration of `_chunk_plain_text`'s paragraph loop. -/
def plainStep (tc : Text → Nat) (uuid5 sha256 : Text → Text) (now : Text)
    (maxT ot : Nat) (doc : Document) (pageNum : Option Nat)
    (st : PlainState) (para : Text) : PlainState :=
  let pt := tc para
  if pt > maxT then
    let st1 : PlainState :=
      if st.cur ≠ [] then
        ⟨st.chunks ++
          [createChunkDict tc uuid5 sha256 now (joinSep nnSep st.cur) st.idx doc pageNum],
         [], 0, st.idx + 1⟩
      else st
    let w := (splitWs para).foldl
      (wordStep tc uuid5 sha256 now maxT doc pageNum) ⟨st1.chunks, st1.idx, [], 0⟩
    if w.wchunk ≠ [] then
      ⟨w.chunks, [joinSep spSep w.wchunk], w.wtok, w.idx⟩
    else ⟨w.chunks, st1.cur, st1.curTok, w.idx⟩
  else if st.curTok + pt ≤ maxT then
    ⟨st.chunks, st.cur ++ [para], st.curTok + pt, st.idx⟩
  else
    let st1 : PlainState :=
      if st.cur ≠ [] then
        ⟨st.chunks ++
          [createChunkDict tc uuid5 sha256 now (joinSep nnSep st.cur) st.idx doc pageNum],
         st.cur, st.curTok, st.idx + 1⟩
      else st
    let ov := getOverlapText ot st.cur
    let cur := if ov ≠ [] then [ov, para] else [para]
    ⟨st1.chunks, cur, tc (joinSep nnSep cur), st1.idx⟩

/-- `_chunk_plain_text`: paragraph windowing with word-split fallback. -/
def chunkPlainText (tc : Text → Nat) (uuid5 sha256 : Text → Text)
    (now : Text) (maxT ot : Nat) (text : Text) (doc : Document)
    (pageNum : Option Nat) : List Chunk :=
  let paragraphs := ((splitNN text).map stripWs).filter (fun p => p ≠ [])
  let st := paragraphs.foldl
    (plainStep tc uuid5 sha256 now maxT ot doc pageNum) ⟨[], [], 0, 0⟩
  if st.cur ≠ [] then
    st.chunks ++
      [createChunkDict tc uuid5 sha256 now (joinSep nnSep st.cur) st.idx doc pageNum]
  else st.chunks

/-- `_chunk_pdf_document`: each page's element texts joined with a
newline and run through the plain-text path, tagged with the page. -/
def chunkPdfDocument (tc : Text → Nat) (uuid5 sha256 : Text → Text)
    (now : Text) (maxT ot : Nat) (doc : Document) : List Chunk :=
  doc.pages.foldl
    (fun acc page =>
      acc ++ chunkPlainText tc uuid5 sha256 now maxT ot
        (joinSep nlSep (page.elements.map (fun e => e.text))) doc
        (some page.page_number)) []

/-- `_chunk_html_document`: semantic elements if present, else plain
text; table chunks appended when tables exist and verbatim preservation
is on. -/
def chunkHtmlDocument (tc : Text → Nat) (uuid5 sha256 : Text → Text)
    (now : Text) (maxT ot : Nat) (doc : Document) (preserve : Bool) :
    List Chunk :=
  let base :=
    if doc.semantic_elements ≠ [] then
      chunkSemanticElements tc uuid5 sha256 now maxT ot doc.semantic_elements doc
    else
      chunkPlainText tc uuid5 sha256 now maxT ot doc.plain_text doc none
  if doc.tables ≠ [] ∧ preserve = true then
    base ++ createTableChunks tc uuid5 now doc.tables doc
  else base

/-- `create_chunks`: dispatch on file type; unknown types yield `[]`. -/
def createChunks (tc : Text → Nat) (uuid5 sha256 : Text → Text)
    (cfg : Config) (doc : Document) (now : Text) : List Chunk :=
  let maxT := cfg.maxTokensPerChunk
  let ot := maxT * cfg.overlapPercentage / 100
  if doc.file_type = some "html".data then
    chunkHtmlDocument tc uuid5 sha256 now maxT ot doc cfg.preserveVerbatim
  else if doc.file_type = some "pdf".data then
    chunkPdfDocument tc uuid5 sha256 now maxT ot doc
  else []

/-! ## Version ledger -/

/-- A row of the `chunk_checksums` table. -/
structure VersionRecord where
  parent_document_id : Option Text
  checksum : Text
  version : Nat
  created_at : Option Text
  updated_at : Text
  ingested_at : Text
deriving DecidableEq

/-- The ledger: an association list keyed by `chunk_id` (the SQLite
primary key). -/
abbrev Ledger := List (Text × VersionRecord)

def ledgerLookup : Ledger → Text → Option VersionRecord
  | [], _ => none
  | (k, r) :: rest, id0 => if k = id0 then some r else ledgerLookup rest id0

/-- `INSERT OR REPLACE` keyed by the primary key. -/
def ledgerUpsert (db : Ledger) (k : Text) (r : VersionRecord) : Ledger :=
  db.filter (fun kv => kv.1 ≠ k) ++ [(k, r)]

inductive DiffStatus where
  | isNew
  | updated
  | unchanged
deriving DecidableEq

/-- `check_chunk_diff`: classify a chunk against the ledger.  Reading
`chunk['checksum']` from a chunk built without that key raises
`KeyError`, modelled as `Except.error`. -/
def checkChunkDiff (chunk : Chunk) (db : Ledger) :
    Except Unit (DiffStatus × Nat) :=
  match chunk.checksum with
  | none => .error ()
  | some cs =>
    match ledgerLookup db chunk.chunk_id with
    | none => .ok (.isNew, 1)
    | some r =>
      if r.checksum ≠ cs then .ok (.updated, r.version + 1)
      else .ok (.unchanged, r.version)

/-- `update_chunk_checksum`: insert-or-replace the chunk's row, storing
the chunk's fingerprint, the given version, the chunk's own metadata
`created_at`, and `now` for `updated_at`/`ingested_at`. -/
def updateChunkChecksum (chunk : Chunk) (version : Nat) (now : Text)
    (db : Ledger) : Except Unit Ledger :=
  match chunk.checksum with
  | none => .error ()
  | some cs =>
    .ok (ledgerUpsert db chunk.chunk_id
      { parent_document_id := chunk.metadata.parent_document_id
        checksum := cs
        version := version
        created_at := some chunk.metadata.created_at
        updated_at := now
        ingested_at := now })

/-- The classify/record loop of `process_document`: each new or updated
chunk is recorded immediately (one committed write per chunk); a raised
error aborts the loop, leaving the writes already committed in place. -/
def processChunksLoop (now : Text) :
    List Chunk → Ledger → List Chunk → Ledger × List Chunk × Bool
  | [], db, acc => (db, acc, false)
  | c :: cs, db, acc =>
    match checkChunkDiff c db with
    | .error _ => (db, acc, true)
    | .ok (st, v) =>
      if st = .unchanged then processChunksLoop now cs db acc
      else
        match updateChunkChecksum c v now db with
        | .error _ => (db, acc ++ [c], true)
        | .ok db' => processChunksLoop now cs db' (acc ++ [c])

structure ProcResult where
  db : Ledger
  errored : Bool
  chunksCreated : Nat
  chunksIngested : Nat
deriving DecidableEq

/-- `process_document` from the parsed document onward: create chunks,
classify and record each, collect the new/updated subset for ingestion;
any raised error is caught and reported as a failed document. -/
def processDocument (tc : Text → Nat) (uuid5 sha256 : Text → Text)
    (cfg : Config) (doc : Document) (now : Text) (db : Ledger) :
    ProcResult :=
  let chunks := createChunks tc uuid5 sha256 cfg doc now
  let r := processChunksLoop now chunks db []
  ⟨r.1, r.2.2, chunks.length, r.2.1.length⟩

/-! ## Word-level view of the oversized-unit splitters

`splitLargeWords` is `_split_large_text`'s loop with chunks kept as word
lists instead of joined strings (the join is applied once at the end);
`wordSplitWords` is the inline word loop of `_chunk_plain_text` in the
same style.  Theorems relate them to the literal embeddings above. -/

structure SplitWState where
  chunks : List (List Text)
  cur : List Text
  curTok : Nat
deriving DecidableEq

def splitWStep (tc : Text → Nat) (maxT ot : Nat) (st : SplitWState)
    (w : Text) : SplitWState :=
  let wt := tc w
  if st.curTok + wt ≤ maxT then
    ⟨st.chunks, st.cur ++ [w], st.curTok + wt⟩
  else
    let chunks := st.chunks ++ [st.cur]
    let ow := st.cur.length * ot / maxT
    let cur := if ow ≠ 0 then st.cur.drop (st.cur.length - ow) ++ [w] else [w]
    ⟨chunks, cur, tc (joinSep spSep cur)⟩

def splitLargeWords (tc : Text → Nat) (maxT ot : Nat) (ws : List Text) :
    List (List Text) :=
  let st := ws.foldl (splitWStep tc maxT ot) ⟨[], [], 0⟩
  if st.cur ≠ [] then st.chunks ++ [st.cur] else st.chunks

structure WordWState where
  chunks : List (List Text)
  cur : List Text
  curTok : Nat
deriving DecidableEq

def wordWStep (tc : Text → Nat) (maxT : Nat) (st : WordWState) (w : Text) :
    WordWState :=
  let wt := tc (w ++ spSep)
  if st.curTok + wt ≤ maxT then
    ⟨st.chunks, st.cur ++ [w], st.curTok + wt⟩
  else if st.cur ≠ [] then ⟨st.chunks ++ [st.cur], [w], wt⟩
  else ⟨st.chunks, [w], wt⟩

/-- The word chunks emitted by `_chunk_plain_text`'s inline word loop
(first component) and the residual word chunk carried back into the
paragraph window (second component). -/
def wordSplitWords (tc : Text → Nat) (maxT : Nat) (ws : List Text) :
    List (List Text) × List Text :=
  let st := ws.foldl (wordWStep tc maxT) ⟨[], [], 0⟩
  (st.chunks, st.cur)

/-- The overlap word count `_split_large_text` computes at a flush:
`int(len(current_chunk) * overlap_tokens / max_tokens)`. -/
def ovCount (maxT ot : Nat) (a : List Text) : Nat := a.length * ot / maxT

/-- Overlap seeding relation between successive sub-chunks of
`_split_large_text`: the successor begins with exactly the trailing
`ovCount` words of its predecessor (empty when that count is zero). -/
def OvSeeded (maxT ot : Nat) (a b : List Text) : Prop :=
  b.take (ovCount maxT ot a) = a.drop (a.length - ovCount maxT ot a)

/-- Decidable check that chunk `b` does not share any non-empty
word-overlap prefix with the end of chunk `a`. -/
def noWordOverlapB (a b : Text) : Bool :=
  (List.range ((splitWs a).length + 1)).all (fun k =>
    k == 0 ||
      decide ((splitWs b).take k ≠ (splitWs a).drop ((splitWs a).length - k)))

/-! ## Concrete fixtures for witnesses and counterexamples -/

/-- Identity stand-in for the abstract `uuid5`/`sha256` hash. -/
def idT : Text → Text := fun t => t

def cexSemDoc : Document :=
  ⟨some "html".data, some "doc".data, none, none,
   [⟨"a b".data⟩, ⟨"c d e".data⟩], [], [], [], []⟩

def cexPlainDoc : Document :=
  ⟨some "html".data, some "doc".data, none, none, [], "a b c d".data,
   [], [], []⟩

def cexTableDoc : Document :=
  ⟨some "html".data, some "doc".data, none, none, [⟨"hello".data⟩], [],
   [⟨some "|t|".data, none, some 1, some 2⟩], [], []⟩

def wTableDoc : Document :=
  ⟨some "html".data, some "d".data, none, none, [⟨"hi".data⟩], [],
   [⟨some "w1 w2 w3 w4".data, none, some 4, some 1⟩], [], []⟩

def wDocTxt : Document :=
  ⟨some "txt".data, some "doc".data, none, none, [], [], [], [], []⟩

/-- A PDF document that declares a table (as `parse_pdf` produces:
`file_type = 'pdf'` with a non-empty `tables` list). -/
def cexPdfTableDoc : Document :=
  ⟨some "pdf".data, some "doc".data, none, none, [], [],
   [⟨some "|t|".data, none, some 1, some 2⟩],
   [⟨1, [⟨"hello".data⟩]⟩], []⟩

def wChunkMeta : ChunkMeta :=
  ⟨none, some "doc".data, [], none, none, 0, "T1".data, false, none,
   none, none, none, none, []⟩

def wChunk : Chunk :=
  ⟨"id1".data, "hello".data, wChunkMeta, some "cs1".data, 1⟩

def wRecOld : VersionRecord :=
  ⟨some "doc".data, "cs0".data, 2, some "T0".data, "U0".data, "I0".data⟩

def wRecSame : VersionRecord :=
  ⟨some "doc".data, "cs1".data, 2, some "T0".data, "U0".data, "I0".data⟩

/-- The timestamp-independent key of a chunk: its content and id. -/
def ckey (c : Chunk) : Text × Text := (c.content, c.chunk_id)

/-- Replace a chunk's metadata creation timestamp. -/
def setNow (now : Text) (c : Chunk) : Chunk :=
  { c with metadata := { c.metadata with created_at := now } }

/-- Two semantic-path loop states that differ only in the creation
timestamp stamped on already-emitted chunks. -/
def SemNowRel (now : Text) (s t : SemState) : Prop :=
  s.chunks = t.chunks.map (setNow now) ∧ s.cur = t.cur ∧
    s.curTok = t.curTok ∧ s.idx = t.idx

/-- Plain-text-path analogue of `SemNowRel`. -/
def PlainNowRel (now : Text) (s t : PlainState) : Prop :=
  s.chunks = t.chunks.map (setNow now) ∧ s.cur = t.cur ∧
    s.curTok = t.curTok ∧ s.idx = t.idx

/-- Word-loop analogue of `SemNowRel`. -/
def WordNowRel (now : Text) (s t : WordState) : Prop :=
  s.chunks = t.chunks.map (setNow now) ∧ s.idx = t.idx ∧
    s.wchunk = t.wchunk ∧ s.wtok = t.wtok

/-! ## Ledger lemmas -/

theorem ledgerLookup_append_key (l : Ledger) (k : Text) (r : VersionRecord)
    (h : ∀ kv ∈ l, kv.1 ≠ k) : ledgerLookup (l ++ [(k, r)]) k = some r := by
  induction l with
  | nil => simp [ledgerLookup]
  | cons hd tl ih =>
    simp only [List.cons_append, ledgerLookup]
    rw [if_neg (h hd (List.mem_cons_self hd tl))]
    exact ih (fun kv hm => h kv (List.mem_cons_of_mem hd hm))

theorem ledgerLookup_upsert_self (db : Ledger) (k : Text)
    (r : VersionRecord) : ledgerLookup (ledgerUpsert db k r) k = some r := by
  refine ledgerLookup_append_key _ k r (fun kv hm => ?_)
  have := List.of_mem_filter hm
  simpa using this

/-- C2: `check_chunk_diff` implements the three-state classification
machine for every chunk carrying a content fingerprint: absent row gives
`('new', 1)`; present row with differing fingerprint gives
`('updated', prior.version + 1)`; present row with identical fingerprint
gives `('unchanged', prior.version)`. -/
theorem checkChunkDiff_three_state (chunk : Chunk) (db : Ledger)
    (cs : Text) (h : chunk.checksum = some cs) :
    (ledgerLookup db chunk.chunk_id = none →
      checkChunkDiff chunk db = .ok (.isNew, 1)) ∧
    (∀ r, ledgerLookup db chunk.chunk_id = some r → r.checksum ≠ cs →
      checkChunkDiff chunk db = .ok (.updated, r.version + 1)) ∧
    (∀ r, ledgerLookup db chunk.chunk_id = some r → r.checksum = cs →
      checkChunkDiff chunk db = .ok (.unchanged, r.version)) := by
  refine ⟨fun hl => ?_, fun r hl hne => ?_, fun r hl he => ?_⟩ <;>
    simp [checkChunkDiff, h, hl]
  · intro he; exact absurd he hne
  · exact he

theorem checkChunkDiff_three_state_witness :
    checkChunkDiff wChunk [] = .ok (.isNew, 1) ∧
    checkChunkDiff wChunk [("id1".data, wRecOld)] = .ok (.updated, 3) ∧
    checkChunkDiff wChunk [("id1".data, wRecSame)] = .ok (.unchanged, 2) :=
  ⟨(checkChunkDiff_three_state wChunk [] "cs1".data rfl).1 rfl,
   (checkChunkDiff_three_state wChunk [("id1".data, wRecOld)] "cs1".data
      rfl).2.1 wRecOld (by decide) (by decide),
   (checkChunkDiff_three_state wChunk [("id1".data, wRecSame)] "cs1".data
      rfl).2.2 wRecSame (by decide) (by decide)⟩

/-- C3: classification followed by recording is idempotent.  On a ledger
where the chunk is absent, classification is `('new', 1)`; after
`record(chunk, v)` (any `v`, in particular the implied `1`),
re-classifying the same chunk yields `('unchanged', v)` — never `new`
twice. -/
theorem classify_record_classify_idempotent (chunk : Chunk) (db : Ledger)
    (cs : Text) (v : Nat) (now : Text) (h : chunk.checksum = some cs) :
    (ledgerLookup db chunk.chunk_id = none →
      checkChunkDiff chunk db = .ok (.isNew, 1)) ∧
    (∀ db', updateChunkChecksum chunk v now db = .ok db' →
      checkChunkDiff chunk db' = .ok (.unchanged, v)) := by
  constructor
  · intro hl; simp [checkChunkDiff, h, hl]
  · intro db' hu
    have hdb' : db' = ledgerUpsert db chunk.chunk_id
        { parent_document_id := chunk.metadata.parent_document_id
          checksum := cs
          version := v
          created_at := some chunk.metadata.created_at
          updated_at := now
          ingested_at := now } := by
      simp [updateChunkChecksum, h] at hu
      exact hu.symm
    subst hdb'
    simp [checkChunkDiff, h, ledgerLookup_upsert_self]

theorem classify_record_classify_idempotent_witness :
    checkChunkDiff wChunk [] = .ok (.isNew, 1) ∧
    ∀ db', updateChunkChecksum wChunk 1 "U1".data [] = .ok db' →
      checkChunkDiff wChunk db' = .ok (.unchanged, 1) :=
  ⟨(classify_record_classify_idempotent wChunk [] "cs1".data 1 "U1".data
      rfl).1 rfl,
   (classify_record_classify_idempotent wChunk [] "cs1".data 1 "U1".data
      rfl).2⟩

/-- C8 counterexample: `update_chunk_checksum` does not preserve
`created_at` from the original insert.  The ledger holds a row with
`created_at = "T0"`; recording a chunk whose own metadata carries
`created_at = "T1"` replaces the whole row, and the stored `created_at`
becomes `"T1"`, not the original `"T0"`. -/
theorem updateChunkChecksum_overwrites_created_at_cex :
    wRecOld.created_at = some "T0".data ∧
    updateChunkChecksum wChunk 3 "U1".data [("id1".data, wRecOld)] =
      .ok [("id1".data,
        ⟨some "doc".data, "cs1".data, 3, some "T1".data, "U1".data,
         "U1".data⟩)] ∧
    some "T1".data ≠ some "T0".data := by
  refine ⟨rfl, ?_, by decide⟩
  rfl

/-- C8 (amended): `update_chunk_checksum` upserts by `chunk_id`
(`INSERT OR REPLACE`), setting fingerprint, version, `updated_at` and
`ingested_at`; but `created_at` is set to the incoming chunk's own
metadata `created_at`, replacing — not preserving — the value stored by
the original insert. -/
theorem updateChunkChecksum_upsert_behavior (chunk : Chunk) (v : Nat)
    (now : Text) (db : Ledger) (cs : Text)
    (h : chunk.checksum = some cs) :
    updateChunkChecksum chunk v now db =
      .ok (ledgerUpsert db chunk.chunk_id
        { parent_document_id := chunk.metadata.parent_document_id
          checksum := cs
          version := v
          created_at := some chunk.metadata.created_at
          updated_at := now
          ingested_at := now }) ∧
    ∀ db', updateChunkChecksum chunk v now db = .ok db' →
      ledgerLookup db' chunk.chunk_id =
        some { parent_document_id := chunk.metadata.parent_document_id
               checksum := cs
               version := v
               created_at := some chunk.metadata.created_at
               updated_at := now
               ingested_at := now } := by
  constructor
  · simp [updateChunkChecksum, h]
  · intro db' hu
    simp [updateChunkChecksum, h] at hu
    subst hu
    exact ledgerLookup_upsert_self db chunk.chunk_id _

theorem updateChunkChecksum_upsert_behavior_witness :
    updateChunkChecksum wChunk 3 "U1".data [("id1".data, wRecOld)] =
      .ok (ledgerUpsert [("id1".data, wRecOld)] wChunk.chunk_id
        ⟨some "doc".data, "cs1".data, 3, some "T1".data, "U1".data,
         "U1".data⟩) :=
  (updateChunkChecksum_upsert_behavior wChunk 3 "U1".data
    [("id1".data, wRecOld)] "cs1".data rfl).1

/-- C10: a document whose `file_type` is neither `'html'` nor `'pdf'`
yields the empty chunk list from `create_chunks` (no error), and
`process_document` on it completes without a failure, leaving the ledger
untouched with zero chunks created or ingested. -/
theorem createChunks_unknown_file_type (tc : Text → Nat)
    (uuid5 sha256 : Text → Text) (cfg : Config) (doc : Document)
    (now : Text) (db : Ledger)
    (h1 : doc.file_type ≠ some "html".data)
    (h2 : doc.file_type ≠ some "pdf".data) :
    createChunks tc uuid5 sha256 cfg doc now = [] ∧
    processDocument tc uuid5 sha256 cfg doc now db = ⟨db, false, 0, 0⟩ := by
  have hc : createChunks tc uuid5 sha256 cfg doc now = [] := by
    simp [createChunks, h1, h2]
  exact ⟨hc, by simp [processDocument, hc, processChunksLoop]⟩

theorem createChunks_unknown_file_type_witness :
    createChunks wcount idT idT ⟨10, 20, true⟩ wDocTxt [] = [] ∧
    processDocument wcount idT idT ⟨10, 20, true⟩ wDocTxt [] [] =
      ⟨[], false, 0, 0⟩ :=
  createChunks_unknown_file_type wcount idT idT ⟨10, 20, true⟩ wDocTxt []
    [] (by decide) (by decide)

/-- C5: at the failing input (an HTML document with one text element and
one table, verbatim preservation on), the text chunk carries
`sha256(content)` but the table chunk is built with no fingerprint at
all (`checksum = none`), so classifying it raises `KeyError` (modelled
as `Except.error`, i.e. `toOption = none`). -/
theorem tableChunks_lack_fingerprint :
    (createChunks wcount idT idT ⟨10, 20, true⟩ cexTableDoc "T1".data).map
        (fun c => (c.metadata.has_table, c.checksum)) =
      [(false, some "hello".data), (true, none)] ∧
    (createChunks wcount idT idT ⟨10, 20, true⟩ cexTableDoc "T1".data).map
        (fun c => c.content) = ["hello".data, "|t|".data] ∧
    (createTableChunks wcount idT "T1".data cexTableDoc.tables
        cexTableDoc).map (fun c => (checkChunkDiff c []).toOption) =
      [none] := by
  decide

/-- C4 counterexample: processing `cexTableDoc` fails partway (the table
chunk's missing fingerprint raises while classifying), yet the
document's first chunk has already been recorded: the ledger after the
failed `process_document` run is not the ledger from before the run. -/
theorem processDocument_partial_recording_cex :
    (processDocument wcount idT idT ⟨10, 20, true⟩ cexTableDoc "T1".data
        []).errored = true ∧
    (processDocument wcount idT idT ⟨10, 20, true⟩ cexTableDoc "T1".data
        []).db =
      [("doc_0".data,
        ⟨some "doc".data, "hello".data, 1, some "T1".data, "T1".data,
         "T1".data⟩)] ∧
    ([("doc_0".data,
        (⟨some "doc".data, "hello".data, 1, some "T1".data, "T1".data,
         "T1".data⟩ : VersionRecord))] : Ledger) ≠ [] := by
  decide

/-- C4 (amended): per-document recording is incremental, not
all-or-nothing.  When the classify/record loop raises at some chunk, the
ledger is left exactly as after successfully processing some prefix of
the document's chunks — records written before the failure persist. -/
theorem processChunksLoop_error_leaves_prefix_recorded (now : Text) :
    ∀ (chunks : List Chunk) (db : Ledger) (acc : List Chunk),
      (processChunksLoop now chunks db acc).2.2 = true →
      ∃ i, i ≤ chunks.length ∧
        (processChunksLoop now (chunks.take i) db acc).2.2 = false ∧
        (processChunksLoop now chunks db acc).1 =
          (processChunksLoop now (chunks.take i) db acc).1 := by
  intro chunks
  induction chunks with
  | nil => intro db acc h; simp [processChunksLoop] at h
  | cons c cs ih =>
    intro db acc h
    match hc : checkChunkDiff c db with
    | .error e =>
      exact ⟨0, by omega, by simp [processChunksLoop],
        by simp [processChunksLoop, hc]⟩
    | .ok (st, v) =>
      by_cases hst : st = DiffStatus.unchanged
      · have h' : (processChunksLoop now cs db acc).2.2 = true := by
          simpa [processChunksLoop, hc, hst] using h
        obtain ⟨i, hi, h1, h2⟩ := ih db acc h'
        exact ⟨i + 1, by simpa using Nat.succ_le_succ hi,
          by simpa [processChunksLoop, hc, hst] using h1,
          by simpa [processChunksLoop, hc, hst] using h2⟩
      · match hu : updateChunkChecksum c v now db with
        | .error e =>
          exact ⟨0, by omega, by simp [processChunksLoop],
            by simp [processChunksLoop, hc, hst, hu]⟩
        | .ok db' =>
          have h' : (processChunksLoop now cs db' (acc ++ [c])).2.2 = true := by
            simpa [processChunksLoop, hc, hst, hu] using h
          obtain ⟨i, hi, h1, h2⟩ := ih db' (acc ++ [c]) h'
          exact ⟨i + 1, by simpa using Nat.succ_le_succ hi,
            by simpa [processChunksLoop, hc, hst, hu] using h1,
            by simpa [processChunksLoop, hc, hst, hu] using h2⟩

theorem processChunksLoop_error_leaves_prefix_recorded_witness :
    ∃ i, i ≤ (createChunks wcount idT idT ⟨10, 20, true⟩ cexTableDoc
        "T1".data).length ∧
      (processChunksLoop "T1".data
        ((createChunks wcount idT idT ⟨10, 20, true⟩ cexTableDoc
          "T1".data).take i) [] []).2.2 = false ∧
      (processChunksLoop "T1".data
        (createChunks wcount idT idT ⟨10, 20, true⟩ cexTableDoc "T1".data)
        [] []).1 =
        (processChunksLoop "T1".data
          ((createChunks wcount idT idT ⟨10, 20, true⟩ cexTableDoc
            "T1".data).take i) [] []).1 :=
  processChunksLoop_error_leaves_prefix_recorded "T1".data
    (createChunks wcount idT idT ⟨10, 20, true⟩ cexTableDoc "T1".data)
    [] [] (by decide)

theorem enum_map_factor_snd {α β : Type _} (l : List α) (f : Nat × α → β)
    (h : α → β) (hf : ∀ p, f p = h p.2) : l.enum.map f = l.map h := by
  rw [show f = h ∘ Prod.snd from funext fun p => hf p, ← List.map_map,
    List.enum_map_snd]

theorem enum_map_factor_fst {α β : Type _} (l : List α) (f : Nat × α → β)
    (h : Nat → β) (hf : ∀ p, f p = h p.1) :
    l.enum.map f = (List.range l.length).map h := by
  rw [show f = h ∘ Prod.fst from funext fun p => hf p, ← List.map_map,
    List.enum_map_fst]

/-- HTML path of the table contract: with verbatim preservation
enabled, an HTML document declaring tables gets exactly one chunk per
table appended after the windowed text chunks: its content is the
table's verbatim rendering, `has_table` is true, and table index / row
/ column metadata are carried.  `createTableChunks` never consults
`max_tokens` (it does not even take it as an argument), so a table is
emitted as a single chunk with its token count computed normally even
when that count exceeds the limit, and chunk creation raises no error
(it is a total function). -/
theorem tableChunks_verbatim_one_per_table (tc : Text → Nat)
    (uuid5 sha256 : Text → Text) (cfg : Config) (doc : Document)
    (now : Text) (hf : doc.file_type = some "html".data)
    (ht : doc.tables ≠ []) (hp : cfg.preserveVerbatim = true) :
    createChunks tc uuid5 sha256 cfg doc now =
      (if doc.semantic_elements ≠ [] then
        chunkSemanticElements tc uuid5 sha256 now cfg.maxTokensPerChunk
          (cfg.maxTokensPerChunk * cfg.overlapPercentage / 100)
          doc.semantic_elements doc
      else
        chunkPlainText tc uuid5 sha256 now cfg.maxTokensPerChunk
          (cfg.maxTokensPerChunk * cfg.overlapPercentage / 100)
          doc.plain_text doc none) ++
      createTableChunks tc uuid5 now doc.tables doc ∧
    (createTableChunks tc uuid5 now doc.tables doc).length =
      doc.tables.length ∧
    (createTableChunks tc uuid5 now doc.tables doc).map
        (fun c => c.content) =
      doc.tables.map (fun t => t.markdown.getD (t.json.getD [])) ∧
    (createTableChunks tc uuid5 now doc.tables doc).map
        (fun c => c.metadata.has_table) =
      doc.tables.map (fun _ => true) ∧
    (createTableChunks tc uuid5 now doc.tables doc).map
        (fun c => c.metadata.table_index) =
      (List.range doc.tables.length).map some ∧
    (createTableChunks tc uuid5 now doc.tables doc).map
        (fun c => (c.metadata.table_rows, c.metadata.table_columns)) =
      doc.tables.map (fun t => (t.rows, t.columns)) ∧
    (createTableChunks tc uuid5 now doc.tables doc).map
        (fun c => c.token_count) =
      doc.tables.map (fun t => tc (t.markdown.getD (t.json.getD []))) := by
  refine ⟨?_, ?_, ?_, ?_, ?_, ?_, ?_⟩
  · simp [createChunks, hf, chunkHtmlDocument, ht, hp]
  · simp [createTableChunks]
  · simp only [createTableChunks, List.map_map]
    exact enum_map_factor_snd _ _ _ (fun p => rfl)
  · simp only [createTableChunks, List.map_map]
    exact enum_map_factor_snd _ _ (fun _ => true) (fun p => rfl)
  · simp only [createTableChunks, List.map_map]
    exact enum_map_factor_fst _ _ some (fun p => rfl)
  · simp only [createTableChunks, List.map_map]
    exact enum_map_factor_snd _ _ _ (fun p => rfl)
  · simp only [createTableChunks, List.map_map]
    exact enum_map_factor_snd _ _ _ (fun p => rfl)

theorem foldl_rel {α σ τ : Type _} (f : σ → α → σ) (g : τ → α → τ)
    (R : σ → τ → Prop) (h : ∀ s t a, R s t → R (f s a) (g t a)) :
    ∀ (l : List α) (s : σ) (t : τ), R s t → R (l.foldl f s) (l.foldl g t) := by
  intro l
  induction l with
  | nil => intro s t hst; exact hst
  | cons a l ih => intro s t hst; exact ih _ _ (h s t a hst)

theorem setNow_createChunkDict (tc : Text → Nat) (u s5 : Text → Text)
    (now content : Text) (idx : Nat) (doc : Document) (p : Option Nat) :
    createChunkDict tc u s5 now content idx doc p =
      setNow now (createChunkDict tc u s5 [] content idx doc p) := rfl

theorem semStep_setNow (tc : Text → Nat) (u s5 : Text → Text) (now : Text)
    (maxT ot : Nat) (doc : Document) (s t : SemState)
    (a : SemanticElement) (h : SemNowRel now s t) :
    SemNowRel now (semStep tc u s5 now maxT ot doc s a)
      (semStep tc u s5 [] maxT ot doc t a) := by
  obtain ⟨hc, hcur, htok, hidx⟩ := h
  by_cases h1 : tc a.text > maxT
  · simp only [semStep, h1, if_true]
    refine foldl_rel _ _ (SemNowRel now)
      (fun s' t' txt h' => ?_) _ _ _ ?_
    · obtain ⟨hc', hcur', htok', hidx'⟩ := h'
      exact ⟨by simp [hc', hidx', setNow_createChunkDict tc u s5 now txt t'.idx doc none],
        hcur', htok', by simp [hidx']⟩
    · by_cases h2 : s.cur = []
      · simp only [hcur ▸ h2, ne_eq, not_true_eq_false, if_false,
          ite_false]
        simp [SemNowRel, h2, hcur ▸ h2, hc, hcur, htok, hidx]
      · have h2' : t.cur ≠ [] := hcur ▸ h2
        simp only [ne_eq, h2, h2', not_false_eq_true, if_true, ite_true]
        refine ⟨?_, rfl, rfl, by simp [hidx]⟩
        simp [hc, hcur, hidx,
          setNow_createChunkDict tc u s5 now (joinSep spSep t.cur) t.idx doc none]
  · by_cases h3 : s.curTok + tc a.text ≤ maxT
    · have h3' : t.curTok + tc a.text ≤ maxT := htok ▸ h3
      simp only [semStep, h1, if_false, h3, h3', if_true, ite_true,
        ite_false]
      exact ⟨hc, by simp [hcur], by simp [htok], hidx⟩
    · have h3' : ¬ t.curTok + tc a.text ≤ maxT := htok ▸ h3
      simp only [semStep, h1, if_false, h3, h3', ite_false]
      refine ⟨?_, by simp [hcur], by simp [hcur], by simp [hidx]⟩
      simp [hc, hcur, hidx,
        setNow_createChunkDict tc u s5 now (joinSep spSep t.cur) t.idx doc none]

theorem chunkSemanticElements_setNow (tc : Text → Nat)
    (u s5 : Text → Text) (now : Text) (maxT ot : Nat)
    (elems : List SemanticElement) (doc : Document) :
    chunkSemanticElements tc u s5 now maxT ot elems doc =
      (chunkSemanticElements tc u s5 [] maxT ot elems doc).map
        (setNow now) := by
  have h := foldl_rel (semStep tc u s5 now maxT ot doc)
    (semStep tc u s5 [] maxT ot doc) (SemNowRel now)
    (fun s t a h => semStep_setNow tc u s5 now maxT ot doc s t a h)
    elems ⟨[], [], 0, 0⟩ ⟨[], [], 0, 0⟩ ⟨rfl, rfl, rfl, rfl⟩
  obtain ⟨hc, hcur, htok, hidx⟩ := h
  unfold chunkSemanticElements
  by_cases h2 : (elems.foldl (semStep tc u s5 [] maxT ot doc)
      ⟨[], [], 0, 0⟩).cur = []
  · simp only [hcur ▸ h2, h2, ne_eq, not_true_eq_false, if_false,
      ite_false]
    exact hc
  · have h2' : (elems.foldl (semStep tc u s5 now maxT ot doc)
        ⟨[], [], 0, 0⟩).cur ≠ [] := hcur ▸ h2
    simp only [ne_eq, h2, h2', not_false_eq_true, if_true, ite_true]
    simp [hc, hcur, hidx,
      setNow_createChunkDict tc u s5 now _ _ doc none]

theorem wordStep_setNow (tc : Text → Nat) (u s5 : Text → Text)
    (now : Text) (maxT : Nat) (doc : Document) (p : Option Nat)
    (s t : WordState) (w : Text) (h : WordNowRel now s t) :
    WordNowRel now (wordStep tc u s5 now maxT doc p s w)
      (wordStep tc u s5 [] maxT doc p t w) := by
  obtain ⟨hc, hidx, hw, htok⟩ := h
  by_cases h1 : s.wtok + tc (w ++ spSep) ≤ maxT
  · have h1' : t.wtok + tc (w ++ spSep) ≤ maxT := htok ▸ h1
    simp only [wordStep, h1, h1', if_true, ite_true]
    exact ⟨hc, hidx, by simp [hw], by simp [htok]⟩
  · have h1' : ¬ t.wtok + tc (w ++ spSep) ≤ maxT := htok ▸ h1
    by_cases h2 : s.wchunk = []
    · simp only [wordStep, h1, h1', hw ▸ h2, h2, ne_eq, not_true_eq_false,
        if_false, ite_false]
      exact ⟨hc, hidx, rfl, rfl⟩
    · have h2' : t.wchunk ≠ [] := hw ▸ h2
      simp only [wordStep, h1, h1', ne_eq, h2, h2', not_false_eq_true,
        if_true, ite_true, if_false, ite_false]
      refine ⟨?_, by simp [hidx], rfl, rfl⟩
      simp [hc, hw, hidx,
        setNow_createChunkDict tc u s5 now (joinSep spSep t.wchunk) t.idx doc p]

theorem plainBig_setNow (tc : Text → Nat) (u s5 : Text → Text)
    (now : Text) (maxT : Nat) (doc : Document) (p : Option Nat)
    (para : Text) (s1 t1 : PlainState) (h : PlainNowRel now s1 t1) :
    PlainNowRel now
      (if ((splitWs para).foldl (wordStep tc u s5 now maxT doc p)
            ⟨s1.chunks, s1.idx, [], 0⟩).wchunk ≠ [] then
        ⟨((splitWs para).foldl (wordStep tc u s5 now maxT doc p)
            ⟨s1.chunks, s1.idx, [], 0⟩).chunks,
         [joinSep spSep (((splitWs para).foldl
            (wordStep tc u s5 now maxT doc p)
            ⟨s1.chunks, s1.idx, [], 0⟩).wchunk)],
         ((splitWs para).foldl (wordStep tc u s5 now maxT doc p)
            ⟨s1.chunks, s1.idx, [], 0⟩).wtok,
         ((splitWs para).foldl (wordStep tc u s5 now maxT doc p)
            ⟨s1.chunks, s1.idx, [], 0⟩).idx⟩
      else
        ⟨((splitWs para).foldl (wordStep tc u s5 now maxT doc p)
            ⟨s1.chunks, s1.idx, [], 0⟩).chunks, s1.cur, s1.curTok,
         ((splitWs para).foldl (wordStep tc u s5 now maxT doc p)
            ⟨s1.chunks, s1.idx, [], 0⟩).idx⟩)
      (if ((splitWs para).foldl (wordStep tc u s5 [] maxT doc p)
            ⟨t1.chunks, t1.idx, [], 0⟩).wchunk ≠ [] then
        ⟨((splitWs para).foldl (wordStep tc u s5 [] maxT doc p)
            ⟨t1.chunks, t1.idx, [], 0⟩).chunks,
         [joinSep spSep (((splitWs para).foldl
            (wordStep tc u s5 [] maxT doc p)
            ⟨t1.chunks, t1.idx, [], 0⟩).wchunk)],
         ((splitWs para).foldl (wordStep tc u s5 [] maxT doc p)
            ⟨t1.chunks, t1.idx, [], 0⟩).wtok,
         ((splitWs para).foldl (wordStep tc u s5 [] maxT doc p)
            ⟨t1.chunks, t1.idx, [], 0⟩).idx⟩
      else
        ⟨((splitWs para).foldl (wordStep tc u s5 [] maxT doc p)
            ⟨t1.chunks, t1.idx, [], 0⟩).chunks, t1.cur, t1.curTok,
         ((splitWs para).foldl (wordStep tc u s5 [] maxT doc p)
            ⟨t1.chunks, t1.idx, [], 0⟩).idx⟩) := by
  obtain ⟨hc, hcur, htok, hidx⟩ := h
  have hw := foldl_rel (wordStep tc u s5 now maxT doc p)
    (wordStep tc u s5 [] maxT doc p) (WordNowRel now)
    (fun s' t' w h' => wordStep_setNow tc u s5 now maxT doc p s' t' w h')
    (splitWs para) ⟨s1.chunks, s1.idx, [], 0⟩ ⟨t1.chunks, t1.idx, [], 0⟩
    ⟨hc, hidx, rfl, rfl⟩
  obtain ⟨hwc, hwi, hww, hwt⟩ := hw
  by_cases h3 : ((splitWs para).foldl (wordStep tc u s5 [] maxT doc p)
      ⟨t1.chunks, t1.idx, [], 0⟩).wchunk = []
  · have h3s : ((splitWs para).foldl (wordStep tc u s5 now maxT doc p)
        ⟨s1.chunks, s1.idx, [], 0⟩).wchunk = [] := by rw [hww]; exact h3
    simp only [h3, h3s, ne_eq, not_true_eq_false, ite_false]
    exact ⟨hwc, hcur, htok, hwi⟩
  · have h3s : ¬ ((splitWs para).foldl (wordStep tc u s5 now maxT doc p)
        ⟨s1.chunks, s1.idx, [], 0⟩).wchunk = [] := by rw [hww]; exact h3
    simp only [ne_eq, h3, h3s, not_false_eq_true, ite_true]
    exact ⟨hwc, by rw [hww], by rw [hwt], hwi⟩

theorem plainStep_setNow (tc : Text → Nat) (u s5 : Text → Text)
    (now : Text) (maxT ot : Nat) (doc : Document) (p : Option Nat)
    (s t : PlainState) (para : Text) (h : PlainNowRel now s t) :
    PlainNowRel now (plainStep tc u s5 now maxT ot doc p s para)
      (plainStep tc u s5 [] maxT ot doc p t para) := by
  obtain ⟨hc, hcur, htok, hidx⟩ := h
  have hst1 : PlainNowRel now
      (if s.cur ≠ [] then
        (⟨s.chunks ++
          [createChunkDict tc u s5 now (joinSep nnSep s.cur) s.idx doc p],
         [], 0, s.idx + 1⟩ : PlainState)
       else s)
      (if t.cur ≠ [] then
        (⟨t.chunks ++
          [createChunkDict tc u s5 [] (joinSep nnSep t.cur) t.idx doc p],
         [], 0, t.idx + 1⟩ : PlainState)
       else t) := by
    by_cases h2 : s.cur = []
    · simp only [hcur ▸ h2, h2, ne_eq, not_true_eq_false, if_false,
        ite_false]
      exact ⟨hc, hcur, htok, hidx⟩
    · have h2' : t.cur ≠ [] := hcur ▸ h2
      simp only [ne_eq, h2, h2', not_false_eq_true, if_true, ite_true]
      refine ⟨?_, rfl, rfl, by simp [hidx]⟩
      simp [hc, hcur, hidx,
        setNow_createChunkDict tc u s5 now (joinSep nnSep t.cur) t.idx doc p]
  by_cases h1 : tc para > maxT
  · simp only [plainStep, h1, if_true, ite_true]
    exact plainBig_setNow tc u s5 now maxT doc p para _ _ hst1
  · by_cases h3 : s.curTok + tc para ≤ maxT
    · have h3' : t.curTok + tc para ≤ maxT := htok ▸ h3
      simp only [plainStep, h1, if_false, h3, h3', if_true, ite_true,
        ite_false]
      exact ⟨hc, by simp [hcur], by simp [htok], hidx⟩
    · have h3' : ¬ t.curTok + tc para ≤ maxT := htok ▸ h3
      by_cases h2 : s.cur = []
      · simp only [plainStep, h1, if_false, h3, h3', ite_false,
          hcur ▸ h2, h2, ne_eq, not_true_eq_false]
        exact ⟨hc, by simp [hcur], by simp [hcur], hidx⟩
      · have h2' : t.cur ≠ [] := hcur ▸ h2
        simp only [plainStep, h1, if_false, h3, h3', ite_false, ne_eq,
          h2, h2', not_false_eq_true, if_true, ite_true]
        refine ⟨?_, by simp [hcur], by simp [hcur], by simp [hidx]⟩
        simp [hc, hcur, hidx,
          setNow_createChunkDict tc u s5 now (joinSep nnSep t.cur) t.idx doc p]

theorem chunkPlainText_setNow (tc : Text → Nat) (u s5 : Text → Text)
    (now : Text) (maxT ot : Nat) (text : Text) (doc : Document)
    (p : Option Nat) :
    chunkPlainText tc u s5 now maxT ot text doc p =
      (chunkPlainText tc u s5 [] maxT ot text doc p).map (setNow now) := by
  have h := foldl_rel (plainStep tc u s5 now maxT ot doc p)
    (plainStep tc u s5 [] maxT ot doc p) (PlainNowRel now)
    (fun s t a h => plainStep_setNow tc u s5 now maxT ot doc p s t a h)
    (((splitNN text).map stripWs).filter (fun q => q ≠ []))
    ⟨[], [], 0, 0⟩ ⟨[], [], 0, 0⟩ ⟨rfl, rfl, rfl, rfl⟩
  obtain ⟨hc, hcur, htok, hidx⟩ := h
  unfold chunkPlainText
  by_cases h2 : ((((splitNN text).map stripWs).filter
      (fun q => q ≠ [])).foldl (plainStep tc u s5 [] maxT ot doc p)
      ⟨[], [], 0, 0⟩).cur = []
  · rw [if_neg (by rw [hcur]; exact fun hx => hx h2),
      if_neg (fun hx => hx h2)]
    exact hc
  · rw [if_pos (by rw [hcur]; exact h2), if_pos h2, List.map_append, hc,
      hcur, hidx]
    rw [setNow_createChunkDict tc u s5 now]
    rfl

theorem chunkPdfDocument_setNow (tc : Text → Nat) (u s5 : Text → Text)
    (now : Text) (maxT ot : Nat) (doc : Document) :
    chunkPdfDocument tc u s5 now maxT ot doc =
      (chunkPdfDocument tc u s5 [] maxT ot doc).map (setNow now) := by
  unfold chunkPdfDocument
  refine foldl_rel _ _ (fun (a b : List Chunk) => a = b.map (setNow now))
    ?_ doc.pages [] [] rfl
  intro a b page hab
  dsimp only at hab ⊢
  rw [hab, chunkPlainText_setNow tc u s5 now maxT ot
    (joinSep nlSep (page.elements.map (fun e => e.text))) doc
    (some page.page_number), ← List.map_append]

theorem createTableChunks_setNow (tc : Text → Nat) (u : Text → Text)
    (now : Text) (tables : List Table) (doc : Document) :
    createTableChunks tc u now tables doc =
      (createTableChunks tc u [] tables doc).map (setNow now) := by
  unfold createTableChunks
  rw [List.map_map]
  exact List.map_congr_left (fun it _ => rfl)

theorem createChunks_setNow (tc : Text → Nat) (u s5 : Text → Text)
    (cfg : Config) (doc : Document) (now : Text) :
    createChunks tc u s5 cfg doc now =
      (createChunks tc u s5 cfg doc []).map (setNow now) := by
  unfold createChunks chunkHtmlDocument
  by_cases h1 : doc.file_type = some "html".data
  · rw [if_pos h1, if_pos h1]
    by_cases h2 : doc.tables ≠ [] ∧ cfg.preserveVerbatim = true
    · rw [if_pos h2, if_pos h2, List.map_append]
      by_cases h3 : doc.semantic_elements ≠ []
      · rw [if_pos h3, if_pos h3, chunkSemanticElements_setNow,
          createTableChunks_setNow]
      · rw [if_neg h3, if_neg h3, chunkPlainText_setNow,
          createTableChunks_setNow]
    · rw [if_neg h2, if_neg h2]
      by_cases h3 : doc.semantic_elements ≠ []
      · rw [if_pos h3, if_pos h3]
        exact chunkSemanticElements_setNow tc u s5 now _ _ _ doc
      · rw [if_neg h3, if_neg h3]
        exact chunkPlainText_setNow tc u s5 now _ _ _ doc none
  · rw [if_neg h1, if_neg h1]
    by_cases h4 : doc.file_type = some "pdf".data
    · rw [if_pos h4, if_pos h4]
      exact chunkPdfDocument_setNow tc u s5 now _ _ doc
    · rw [if_neg h4, if_neg h4]
      rfl

/-- C9: chunking is deterministic.  The only run-varying input of the
embedded chunker is the creation timestamp; for any fixed parsed
document, configuration, tokenizer and hash functions, two runs (any
two timestamps) produce the same number of chunks with identical
content in the same order and identical chunk ids.  Table chunk ids are
the deterministic name hash of the document fingerprint and the
positional key `"table_<index>"` (text chunks use the ordinal index,
visible in `createChunkDict`). -/
theorem createChunks_deterministic (tc : Text → Nat)
    (uuid5 sha256 : Text → Text) (cfg : Config) (doc : Document)
    (now1 now2 : Text) :
    (createChunks tc uuid5 sha256 cfg doc now1).map ckey =
      (createChunks tc uuid5 sha256 cfg doc now2).map ckey ∧
    (createChunks tc uuid5 sha256 cfg doc now1).length =
      (createChunks tc uuid5 sha256 cfg doc now2).length ∧
    (createTableChunks tc uuid5 now1 doc.tables doc).map
        (fun c => c.chunk_id) =
      (List.range doc.tables.length).map
        (fun i => genChunkId uuid5 doc ("table_".data ++ natToText i)) := by
  refine ⟨?_, ?_, ?_⟩
  · rw [createChunks_setNow tc uuid5 sha256 cfg doc now1,
      createChunks_setNow tc uuid5 sha256 cfg doc now2,
      List.map_map, List.map_map]
    rfl
  · rw [createChunks_setNow tc uuid5 sha256 cfg doc now1,
      createChunks_setNow tc uuid5 sha256 cfg doc now2,
      List.length_map, List.length_map]
  · simp only [createTableChunks, List.map_map]
    exact enum_map_factor_fst _ _
      (fun i => genChunkId uuid5 doc ("table_".data ++ natToText i))
      (fun p => rfl)

/-! ## Word-count lemmas -/

theorem splitWsAux_length_append_ws (c : Char) (hc : c.isWhitespace = true)
    (y : Text) : ∀ (x acc : Text),
    (splitWsAux (x ++ c :: y) acc).length =
      (splitWsAux x acc).length + (splitWsAux y []).length := by
  intro x
  induction x with
  | nil =>
    intro acc
    by_cases hacc : acc = [] <;> simp [splitWsAux, hc, hacc, Nat.add_comm]
  | cons d x ih =>
    intro acc
    by_cases hd : d.isWhitespace
    · by_cases hacc : acc = [] <;>
        simp [splitWsAux, hd, hacc, ih, Nat.add_assoc, Nat.add_comm]
    · simp [splitWsAux, hd, ih]

theorem wc_append_ws (c : Char) (hc : c.isWhitespace = true) (x y : Text) :
    wcount (x ++ c :: y) = wcount x + wcount y :=
  splitWsAux_length_append_ws c hc y x []

theorem wc_cons_ws (c : Char) (hc : c.isWhitespace = true) (y : Text) :
    wcount (c :: y) = wcount y := by
  simp [wcount, splitWs, splitWsAux, hc]

theorem wc_nil : wcount [] = 0 := rfl

theorem wc_join_sp (l : List Text) :
    wcount (joinSep spSep l) = (l.map wcount).sum := by
  induction l with
  | nil => rfl
  | cons x xs ih =>
    cases xs with
    | nil => simp [joinSep]
    | cons y ys =>
      show wcount (x ++ spSep ++ joinSep spSep (y :: ys)) = _
      rw [List.append_assoc]
      have : spSep ++ joinSep spSep (y :: ys) =
          ' ' :: joinSep spSep (y :: ys) := rfl
      rw [this, wc_append_ws ' ' (by decide), ih]
      simp

theorem wc_join_nn (l : List Text) :
    wcount (joinSep nnSep l) = (l.map wcount).sum := by
  induction l with
  | nil => rfl
  | cons x xs ih =>
    cases xs with
    | nil => simp [joinSep]
    | cons y ys =>
      show wcount (x ++ nnSep ++ joinSep nnSep (y :: ys)) = _
      rw [List.append_assoc]
      have h2 : nnSep ++ joinSep nnSep (y :: ys) =
          '\n' :: ('\n' :: joinSep nnSep (y :: ys)) := rfl
      rw [h2, wc_append_ws '\n' (by decide),
        wc_cons_ws '\n' (by decide), ih]
      simp

theorem mem_splitWsAux_facts : ∀ (l acc w : Text),
    (∀ ch ∈ acc, ch.isWhitespace = false) → w ∈ splitWsAux l acc →
    w ≠ [] ∧ ∀ ch ∈ w, ch.isWhitespace = false := by
  intro l
  induction l with
  | nil =>
    intro acc w hacc hm
    by_cases hacc0 : acc = []
    · simp [splitWsAux, hacc0] at hm
    · simp only [splitWsAux, hacc0, if_false, ite_false,
        List.mem_singleton] at hm
      subst hm
      refine ⟨by simpa using hacc0, fun ch hch => hacc ch ?_⟩
      simpa using hch
  | cons c cs ih =>
    intro acc w hacc hm
    by_cases hc : c.isWhitespace
    · by_cases hacc0 : acc = []
      · simp only [splitWsAux, hc, if_true, ite_true, hacc0,
          if_true, ite_true] at hm
        exact ih [] w (by simp) hm
      · simp only [splitWsAux, hc, if_true, ite_true, hacc0, if_false,
          ite_false, List.mem_cons] at hm
        rcases hm with hm | hm
        · subst hm
          refine ⟨by simpa using hacc0, fun ch hch => hacc ch ?_⟩
          simpa using hch
        · exact ih [] w (by simp) hm
    · simp only [splitWsAux, hc, if_false, ite_false] at hm
      refine ih (c :: acc) w ?_ hm
      intro ch hch
      rcases List.mem_cons.mp hch with h | h
      · subst h; simpa using hc
      · exact hacc ch h

theorem mem_splitWs_facts (t w : Text) (h : w ∈ splitWs t) :
    w ≠ [] ∧ ∀ ch ∈ w, ch.isWhitespace = false :=
  mem_splitWsAux_facts t [] w (by simp) h

theorem splitWsAux_all_nonws : ∀ (u acc : Text),
    (∀ ch ∈ u, ch.isWhitespace = false) →
    splitWsAux u acc =
      if acc.reverse ++ u = [] then [] else [acc.reverse ++ u] := by
  intro u
  induction u with
  | nil =>
    intro acc _
    by_cases hacc : acc = [] <;> simp [splitWsAux, hacc]
  | cons c u ih =>
    intro acc h
    have hc : c.isWhitespace = false := h c (List.mem_cons_self c u)
    have hne : acc.reverse ++ c :: u ≠ [] := by simp
    simp only [splitWsAux, hc, if_false, ite_false, Bool.false_eq_true]
    rw [ih (c :: acc) (fun ch hch => h ch (List.mem_cons_of_mem c hch))]
    simp [hne]

theorem wc_word (w : Text) (hne : w ≠ [])
    (hw : ∀ ch ∈ w, ch.isWhitespace = false) : wcount w = 1 := by
  unfold wcount splitWs
  rw [splitWsAux_all_nonws w [] hw]
  simp [hne]

theorem wc_word_sp (w : Text) (hne : w ≠ [])
    (hw : ∀ ch ∈ w, ch.isWhitespace = false) :
    wcount (w ++ spSep) = 1 := by
  have : w ++ spSep = w ++ ' ' :: [] := rfl
  rw [this, wc_append_ws ' ' (by decide), wc_word w hne hw, wc_nil]

theorem sum_map_ones {α : Type _} (l : List α) (f : α → Nat)
    (h : ∀ a ∈ l, f a = 1) : (l.map f).sum = l.length := by
  induction l with
  | nil => rfl
  | cons a l ih =>
    simp [h a (List.mem_cons_self a l),
      ih (fun b hb => h b (List.mem_cons_of_mem a hb)), Nat.add_comm]

theorem wc_join_words (ws : List Text)
    (h : ∀ w ∈ ws, w ≠ [] ∧ ∀ ch ∈ w, ch.isWhitespace = false) :
    wcount (joinSep spSep ws) = ws.length := by
  rw [wc_join_sp]
  exact sum_map_ones ws wcount
    (fun w hw => wc_word w (h w hw).1 (h w hw).2)

theorem getOverlapText_wc (ot : Nat) (cur : List Text) :
    wcount (getOverlapText ot cur) ≤ max 1 (ot / 2) := by
  unfold getOverlapText
  by_cases h : (splitWs (joinSep spSep cur)).length > max 1 (ot / 2)
  · rw [if_pos h]
    have hsub : ∀ w ∈ (splitWs (joinSep spSep cur)).drop
        ((splitWs (joinSep spSep cur)).length - max 1 (ot / 2)),
        w ≠ [] ∧ ∀ ch ∈ w, ch.isWhitespace = false :=
      fun w hw => mem_splitWs_facts _ w (List.drop_subset _ _ hw)
    rw [wc_join_words _ hsub, List.length_drop]
    omega
  · rw [if_neg h]
    have : wcount (joinSep spSep cur) =
        (splitWs (joinSep spSep cur)).length := rfl
    omega

theorem foldl_inv {α σ : Type _} (f : σ → α → σ) (P : σ → Prop) :
    ∀ (l : List α) (s : σ), P s → (∀ s' a, a ∈ l → P s' → P (f s' a)) →
      P (l.foldl f s) := by
  intro l
  induction l with
  | nil => intro s hs _; exact hs
  | cons a l ih =>
    intro s hs h
    exact ih (f s a) (h s a (List.mem_cons_self a l) hs)
      (fun s' b hb => h s' b (List.mem_cons_of_mem a hb))

theorem splitFold_inv (maxT ot : Nat) (hmax : 1 ≤ maxT) (hot : ot < maxT)
    (ws : List Text)
    (hws : ∀ w ∈ ws, w ≠ [] ∧ ∀ ch ∈ w, ch.isWhitespace = false)
    (st : SplitState)
    (h : st.curTok = st.cur.length ∧ st.curTok ≤ maxT ∧
      (∀ w ∈ st.cur, w ≠ [] ∧ ∀ ch ∈ w, ch.isWhitespace = false) ∧
      (∀ ch ∈ st.chunks, wcount ch ≤ maxT)) :
    (ws.foldl (splitStep wcount maxT ot) st).curTok =
      (ws.foldl (splitStep wcount maxT ot) st).cur.length ∧
    (ws.foldl (splitStep wcount maxT ot) st).curTok ≤ maxT ∧
    (∀ w ∈ (ws.foldl (splitStep wcount maxT ot) st).cur,
      w ≠ [] ∧ ∀ ch ∈ w, ch.isWhitespace = false) ∧
    (∀ ch ∈ (ws.foldl (splitStep wcount maxT ot) st).chunks,
      wcount ch ≤ maxT) := by
  refine foldl_inv (splitStep wcount maxT ot)
    (fun s => s.curTok = s.cur.length ∧ s.curTok ≤ maxT ∧
      (∀ w ∈ s.cur, w ≠ [] ∧ ∀ ch ∈ w, ch.isWhitespace = false) ∧
      (∀ ch ∈ s.chunks, wcount ch ≤ maxT))
    ws st h (fun s a ha hP => ?_)
  obtain ⟨hlen, hle, hcur, hchunks⟩ := hP
  have ha1 : wcount a = 1 := wc_word a (hws a ha).1 (hws a ha).2
  by_cases h1 : s.curTok + wcount a ≤ maxT
  · simp only [splitStep, if_pos h1]
    refine ⟨by simp [hlen, ha1], by omega, ?_, hchunks⟩
    intro w hw
    rcases List.mem_append.mp hw with h' | h'
    · exact hcur w h'
    · rw [List.mem_singleton.mp h']; exact hws a ha
  · simp only [splitStep, if_neg h1]
    have hjoin : wcount (joinSep spSep s.cur) = s.cur.length :=
      wc_join_words s.cur hcur
    have hchunks' : ∀ ch ∈ s.chunks ++ [joinSep spSep s.cur],
        wcount ch ≤ maxT := by
      intro ch hch
      rcases List.mem_append.mp hch with h' | h'
      · exact hchunks ch h'
      · rw [List.mem_singleton.mp h', hjoin]; omega
    have how : s.cur.length * ot / maxT ≤ s.cur.length := by
      calc s.cur.length * ot / maxT ≤ s.cur.length * maxT / maxT :=
            Nat.div_le_div_right (Nat.mul_le_mul_left _ (Nat.le_of_lt hot))
        _ = s.cur.length := Nat.mul_div_cancel _ (by omega)
    have hot2 : s.cur.length * ot / maxT ≤ ot := by
      calc s.cur.length * ot / maxT ≤ maxT * ot / maxT :=
            Nat.div_le_div_right (Nat.mul_le_mul_right _ (by omega))
        _ = ot := Nat.mul_div_cancel_left _ (by omega)
    by_cases h2 : s.cur.length * ot / maxT ≠ 0
    · rw [if_pos h2]
      have hsub : ∀ w ∈ s.cur.drop
          (s.cur.length - s.cur.length * ot / maxT) ++ [a],
          w ≠ [] ∧ ∀ ch ∈ w, ch.isWhitespace = false := by
        intro w hw
        rcases List.mem_append.mp hw with h' | h'
        · exact hcur w (List.drop_subset _ _ h')
        · rw [List.mem_singleton.mp h']; exact hws a ha
      have hlen' : wcount (joinSep spSep
          (s.cur.drop (s.cur.length - s.cur.length * ot / maxT) ++ [a])) =
          (s.cur.drop (s.cur.length - s.cur.length * ot / maxT) ++
            [a]).length := wc_join_words _ hsub
      refine ⟨hlen', ?_, hsub, hchunks'⟩
      rw [hlen']
      simp only [List.length_append, List.length_drop,
        List.length_singleton]
      omega
    · rw [if_neg h2]
      have hone : wcount (joinSep spSep [a]) = 1 := by
        show wcount a = 1
        exact ha1
      exact ⟨by simp [hone], by omega, by
        intro w hw; rw [List.mem_singleton.mp hw]; exact hws a ha,
        hchunks'⟩

theorem splitLargeText_bound (maxT ot : Nat) (hmax : 1 ≤ maxT)
    (hot : ot < maxT) (t : Text) :
    ∀ ch ∈ splitLargeText wcount maxT ot t, wcount ch ≤ maxT := by
  unfold splitLargeText
  have h := splitFold_inv maxT ot hmax hot (splitWs t)
    (fun w hw => mem_splitWs_facts t w hw) ⟨[], [], 0⟩
    ⟨rfl, by simp, by simp, by simp⟩
  obtain ⟨hlen, hle, hcur, hchunks⟩ := h
  by_cases h2 : ((splitWs t).foldl (splitStep wcount maxT ot)
      ⟨[], [], 0⟩).cur = []
  · rw [if_neg (fun hx => hx h2)]
    exact hchunks
  · rw [if_pos h2]
    intro ch hch
    rcases List.mem_append.mp hch with h' | h'
    · exact hchunks ch h'
    · rw [List.mem_singleton.mp h', wc_join_words _ hcur]
      omega

theorem createChunkDict_content (tc : Text → Nat) (u s5 : Text → Text)
    (now content : Text) (idx : Nat) (doc : Document) (p : Option Nat) :
    (createChunkDict tc u s5 now content idx doc p).content = content := rfl

theorem createChunkDict_not_table (tc : Text → Nat) (u s5 : Text → Text)
    (now content : Text) (idx : Nat) (doc : Document) (p : Option Nat) :
    (createChunkDict tc u s5 now content idx doc p).metadata.has_table =
      false := rfl

theorem createTableChunks_has_table (tc : Text → Nat) (u : Text → Text)
    (now : Text) (tables : List Table) (doc : Document) :
    ∀ c ∈ createTableChunks tc u now tables doc,
      c.metadata.has_table = true := by
  intro c hc
  obtain ⟨it, _, rfl⟩ := List.mem_map.mp hc
  rfl

theorem semFold_wc_inv (u s5 : Text → Text) (now : Text) (maxT ot : Nat)
    (hmax : 1 ≤ maxT) (hot : ot < maxT) (doc : Document)
    (elems : List SemanticElement) (st : SemState)
    (h : st.curTok = wcount (joinSep spSep st.cur) ∧
      st.curTok ≤ maxT + max 1 (ot / 2) ∧
      ∀ c ∈ st.chunks, wcount c.content ≤ maxT + max 1 (ot / 2)) :
    (elems.foldl (semStep wcount u s5 now maxT ot doc) st).curTok =
      wcount (joinSep spSep
        (elems.foldl (semStep wcount u s5 now maxT ot doc) st).cur) ∧
    (elems.foldl (semStep wcount u s5 now maxT ot doc) st).curTok ≤
      maxT + max 1 (ot / 2) ∧
    ∀ c ∈ (elems.foldl (semStep wcount u s5 now maxT ot doc) st).chunks,
      wcount c.content ≤ maxT + max 1 (ot / 2) := by
  refine foldl_inv (semStep wcount u s5 now maxT ot doc)
    (fun s => s.curTok = wcount (joinSep spSep s.cur) ∧
      s.curTok ≤ maxT + max 1 (ot / 2) ∧
      ∀ c ∈ s.chunks, wcount c.content ≤ maxT + max 1 (ot / 2))
    elems st h (fun s a _ hP => ?_)
  obtain ⟨hq, hle, hchunks⟩ := hP
  by_cases h1 : wcount a.text > maxT
  · simp only [semStep, if_pos h1]
    have hst1 : ∀ st1 : SemState,
        (st1 = if s.cur ≠ [] then
          (⟨s.chunks ++ [createChunkDict wcount u s5 now
            (joinSep spSep s.cur) s.idx doc none], [], 0, s.idx + 1⟩ :
            SemState)
         else s) →
        st1.curTok = wcount (joinSep spSep st1.cur) ∧
        st1.curTok ≤ maxT + max 1 (ot / 2) ∧
        ∀ c ∈ st1.chunks, wcount c.content ≤ maxT + max 1 (ot / 2) := by
      intro st1 hdef
      by_cases h2 : s.cur = []
      · rw [if_neg (fun hx => hx h2)] at hdef
        rw [hdef]; exact ⟨hq, hle, hchunks⟩
      · rw [if_pos h2] at hdef
        rw [hdef]
        refine ⟨rfl, by simp, ?_⟩
        intro c hc
        rcases List.mem_append.mp hc with h' | h'
        · exact hchunks c h'
        · rw [List.mem_singleton.mp h', createChunkDict_content]
          omega
    refine foldl_inv _
      (fun s' : SemState => s'.curTok = wcount (joinSep spSep s'.cur) ∧
        s'.curTok ≤ maxT + max 1 (ot / 2) ∧
        ∀ c ∈ s'.chunks, wcount c.content ≤ maxT + max 1 (ot / 2))
      (splitLargeText wcount maxT ot a.text) _ (hst1 _ rfl)
      (fun s' txt htxt hP' => ?_)
    obtain ⟨hq', hle', hchunks'⟩ := hP'
    refine ⟨hq', hle', ?_⟩
    intro c hc
    rcases List.mem_append.mp hc with h' | h'
    · exact hchunks' c h'
    · rw [List.mem_singleton.mp h', createChunkDict_content]
      have := splitLargeText_bound maxT ot hmax hot a.text txt htxt
      omega
  · by_cases h3 : s.curTok + wcount a.text ≤ maxT
    · simp only [semStep, if_neg h1, if_pos h3]
      refine ⟨?_, by omega, hchunks⟩
      rw [wc_join_sp, List.map_append, List.sum_append, ← wc_join_sp, ← hq]
      simp
    · simp only [semStep, if_neg h1, if_neg h3]
      have hflush : ∀ c ∈ s.chunks ++ [createChunkDict wcount u s5 now
          (joinSep spSep s.cur) s.idx doc none],
          wcount c.content ≤ maxT + max 1 (ot / 2) := by
        intro c hc
        rcases List.mem_append.mp hc with h' | h'
        · exact hchunks c h'
        · rw [List.mem_singleton.mp h', createChunkDict_content]
          omega
      have hov := getOverlapText_wc ot s.cur
      by_cases h4 : getOverlapText ot s.cur ≠ []
      · rw [if_pos h4]
        refine ⟨by trivial, ?_, hflush⟩
        have hpair : joinSep spSep [getOverlapText ot s.cur, a.text] =
            getOverlapText ot s.cur ++ spSep ++ a.text := rfl
        have hcons : spSep ++ a.text = ' ' :: a.text := rfl
        rw [hpair, List.append_assoc, hcons, wc_append_ws ' ' (by decide)]
        omega
      · rw [if_neg h4]
        refine ⟨by trivial, ?_, hflush⟩
        have hone : joinSep spSep [a.text] = a.text := rfl
        rw [hone]
        omega

theorem chunkSemanticElements_wc (u s5 : Text → Text) (now : Text)
    (maxT ot : Nat) (hmax : 1 ≤ maxT) (hot : ot < maxT) (doc : Document)
    (elems : List SemanticElement) :
    ∀ c ∈ chunkSemanticElements wcount u s5 now maxT ot elems doc,
      wcount c.content ≤ maxT + max 1 (ot / 2) := by
  unfold chunkSemanticElements
  have h := semFold_wc_inv u s5 now maxT ot hmax hot doc elems
    ⟨[], [], 0, 0⟩ ⟨rfl, by simp, by simp⟩
  obtain ⟨hq, hle, hchunks⟩ := h
  by_cases h2 : (elems.foldl (semStep wcount u s5 now maxT ot doc)
      ⟨[], [], 0, 0⟩).cur = []
  · rw [if_neg (fun hx => hx h2)]
    exact hchunks
  · rw [if_pos h2]
    intro c hc
    rcases List.mem_append.mp hc with h' | h'
    · exact hchunks c h'
    · rw [List.mem_singleton.mp h', createChunkDict_content]
      omega

theorem wordFold_wc_inv (u s5 : Text → Text) (now : Text) (maxT : Nat)
    (boundTok : Nat) (hmax : 1 ≤ maxT) (hb : maxT ≤ boundTok)
    (doc : Document) (p : Option Nat) (ws : List Text)
    (hws : ∀ w ∈ ws, w ≠ [] ∧ ∀ ch ∈ w, ch.isWhitespace = false)
    (st : WordState)
    (h : st.wtok = st.wchunk.length ∧ st.wtok ≤ maxT ∧
      (∀ x ∈ st.wchunk, x ≠ [] ∧ ∀ ch ∈ x, ch.isWhitespace = false) ∧
      ∀ c ∈ st.chunks, wcount c.content ≤ boundTok) :
    (ws.foldl (wordStep wcount u s5 now maxT doc p) st).wtok =
      (ws.foldl (wordStep wcount u s5 now maxT doc p) st).wchunk.length ∧
    (ws.foldl (wordStep wcount u s5 now maxT doc p) st).wtok ≤ maxT ∧
    (∀ x ∈ (ws.foldl (wordStep wcount u s5 now maxT doc p) st).wchunk,
      x ≠ [] ∧ ∀ ch ∈ x, ch.isWhitespace = false) ∧
    ∀ c ∈ (ws.foldl (wordStep wcount u s5 now maxT doc p) st).chunks,
      wcount c.content ≤ boundTok := by
  refine foldl_inv (wordStep wcount u s5 now maxT doc p)
    (fun s : WordState => s.wtok = s.wchunk.length ∧ s.wtok ≤ maxT ∧
      (∀ x ∈ s.wchunk, x ≠ [] ∧ ∀ ch ∈ x, ch.isWhitespace = false) ∧
      ∀ c ∈ s.chunks, wcount c.content ≤ boundTok)
    ws st h (fun s a ha hP => ?_)
  obtain ⟨hlen, hle, hcur, hchunks⟩ := hP
  have ha1 : wcount (a ++ spSep) = 1 :=
    wc_word_sp a (hws a ha).1 (hws a ha).2
  by_cases h1 : s.wtok + wcount (a ++ spSep) ≤ maxT
  · simp only [wordStep, if_pos h1]
    refine ⟨by simp [hlen, ha1], by omega, ?_, hchunks⟩
    intro x hx
    rcases List.mem_append.mp hx with h' | h'
    · exact hcur x h'
    · rw [List.mem_singleton.mp h']; exact hws a ha
  · by_cases h2 : s.wchunk ≠ []
    · simp only [wordStep, if_neg h1, if_pos h2]
      refine ⟨by simp [ha1], by omega, ?_, ?_⟩
      · intro x hx
        rw [List.mem_singleton.mp hx]; exact hws a ha
      · intro c hc
        rcases List.mem_append.mp hc with h' | h'
        · exact hchunks c h'
        · rw [List.mem_singleton.mp h', createChunkDict_content,
            wc_join_words _ hcur]
          omega
    · simp only [wordStep, if_neg h1, if_neg h2]
      refine ⟨by simp [ha1], by omega, ?_, hchunks⟩
      intro x hx
      rw [List.mem_singleton.mp hx]; exact hws a ha

theorem plainBig_wc (maxT ot : Nat) (st1 : PlainState) (w : WordState)
    (hq1 : st1.curTok = wcount (joinSep nnSep st1.cur))
    (hle1 : st1.curTok <= maxT + max 1 (ot / 2))
    (hwl : w.wtok = w.wchunk.length)
    (hwle : w.wtok <= maxT)
    (hwcur : forall x, x ∈ w.wchunk -> x ≠ [] ∧ forall ch, ch ∈ x -> ch.isWhitespace = false)
    (hwch : forall c, c ∈ w.chunks -> wcount c.content <= maxT + max 1 (ot / 2)) :
    (if w.wchunk ≠ [] then
      (⟨w.chunks, [joinSep spSep w.wchunk], w.wtok, w.idx⟩ : PlainState)
    else (⟨w.chunks, st1.cur, st1.curTok, w.idx⟩ : PlainState)).curTok =
      wcount (joinSep nnSep
        (if w.wchunk ≠ [] then
          (⟨w.chunks, [joinSep spSep w.wchunk], w.wtok, w.idx⟩ :
            PlainState)
        else (⟨w.chunks, st1.cur, st1.curTok, w.idx⟩ : PlainState)).cur) ∧
    (if w.wchunk ≠ [] then
      (⟨w.chunks, [joinSep spSep w.wchunk], w.wtok, w.idx⟩ : PlainState)
    else (⟨w.chunks, st1.cur, st1.curTok, w.idx⟩ : PlainState)).curTok <=
      maxT + max 1 (ot / 2) ∧
    forall c, c ∈ (if w.wchunk ≠ [] then
      (⟨w.chunks, [joinSep spSep w.wchunk], w.wtok, w.idx⟩ : PlainState)
    else
      (⟨w.chunks, st1.cur, st1.curTok, w.idx⟩ : PlainState)).chunks ->
      wcount c.content <= maxT + max 1 (ot / 2) := by
  by_cases h3 : w.wchunk = []
  · rw [if_neg (fun hx => hx h3)]
    exact ⟨hq1, hle1, hwch⟩
  · rw [if_pos h3]
    refine ⟨?_, ?_, hwch⟩
    · show w.wtok = wcount (joinSep nnSep [joinSep spSep w.wchunk])
      have hx : joinSep nnSep [joinSep spSep w.wchunk] =
          joinSep spSep w.wchunk := rfl
      rw [hx, wc_join_words _ hwcur]
      exact hwl
    · show w.wtok ≤ maxT + max 1 (ot / 2)
      omega

theorem plainFold_wc_inv (u s5 : Text → Text) (now : Text)
    (maxT ot : Nat) (hmax : 1 ≤ maxT) (doc : Document) (p : Option Nat)
    (paras : List Text) (st : PlainState)
    (h : st.curTok = wcount (joinSep nnSep st.cur) ∧
      st.curTok ≤ maxT + max 1 (ot / 2) ∧
      ∀ c ∈ st.chunks, wcount c.content ≤ maxT + max 1 (ot / 2)) :
    (paras.foldl (plainStep wcount u s5 now maxT ot doc p) st).curTok =
      wcount (joinSep nnSep
        (paras.foldl (plainStep wcount u s5 now maxT ot doc p) st).cur) ∧
    (paras.foldl (plainStep wcount u s5 now maxT ot doc p) st).curTok ≤
      maxT + max 1 (ot / 2) ∧
    ∀ c ∈ (paras.foldl (plainStep wcount u s5 now maxT ot doc p)
        st).chunks,
      wcount c.content ≤ maxT + max 1 (ot / 2) := by
  refine foldl_inv (plainStep wcount u s5 now maxT ot doc p)
    (fun s : PlainState => s.curTok = wcount (joinSep nnSep s.cur) ∧
      s.curTok ≤ maxT + max 1 (ot / 2) ∧
      ∀ c ∈ s.chunks, wcount c.content ≤ maxT + max 1 (ot / 2))
    paras st h (fun s a _ hP => ?_)
  obtain ⟨hq, hle, hchunks⟩ := hP
  have hst1 : ∀ st1 : PlainState,
      (st1 = if s.cur ≠ [] then
        (⟨s.chunks ++ [createChunkDict wcount u s5 now
          (joinSep nnSep s.cur) s.idx doc p], [], 0, s.idx + 1⟩ :
          PlainState)
       else s) →
      st1.curTok = wcount (joinSep nnSep st1.cur) ∧
      st1.curTok ≤ maxT + max 1 (ot / 2) ∧
      ∀ c ∈ st1.chunks, wcount c.content ≤ maxT + max 1 (ot / 2) := by
    intro st1 hdef
    by_cases h2 : s.cur = []
    · rw [if_neg (fun hx => hx h2)] at hdef
      rw [hdef]; exact ⟨hq, hle, hchunks⟩
    · rw [if_pos h2] at hdef
      rw [hdef]
      refine ⟨rfl, by simp, ?_⟩
      intro c hc
      rcases List.mem_append.mp hc with h' | h'
      · exact hchunks c h'
      · rw [List.mem_singleton.mp h', createChunkDict_content]
        omega
  by_cases h1 : wcount a > maxT
  · simp only [plainStep, if_pos h1]
    obtain ⟨hs1a, hs1b, hs1c⟩ := hst1 _ rfl
    refine plainBig_wc maxT ot _ _ hs1a hs1b ?_ ?_ ?_ ?_
    · exact (wordFold_wc_inv u s5 now maxT (maxT + max 1 (ot / 2)) hmax
        (by omega) doc p (splitWs a)
        (fun w hw => mem_splitWs_facts a w hw) _
        ⟨rfl, by simp, by simp, hs1c⟩).1
    · exact (wordFold_wc_inv u s5 now maxT (maxT + max 1 (ot / 2)) hmax
        (by omega) doc p (splitWs a)
        (fun w hw => mem_splitWs_facts a w hw) _
        ⟨rfl, by simp, by simp, hs1c⟩).2.1
    · exact (wordFold_wc_inv u s5 now maxT (maxT + max 1 (ot / 2)) hmax
        (by omega) doc p (splitWs a)
        (fun w hw => mem_splitWs_facts a w hw) _
        ⟨rfl, by simp, by simp, hs1c⟩).2.2.1
    · exact (wordFold_wc_inv u s5 now maxT (maxT + max 1 (ot / 2)) hmax
        (by omega) doc p (splitWs a)
        (fun w hw => mem_splitWs_facts a w hw) _
        ⟨rfl, by simp, by simp, hs1c⟩).2.2.2
  · by_cases h3 : s.curTok + wcount a ≤ maxT
    · simp only [plainStep, if_neg h1, if_pos h3]
      refine ⟨?_, by omega, hchunks⟩
      rw [wc_join_nn, List.map_append, List.sum_append, ← wc_join_nn, ← hq]
      simp
    · simp only [plainStep, if_neg h1, if_neg h3]
      have hov := getOverlapText_wc ot s.cur
      have hstep : ∀ st1 : PlainState,
          (st1 = if s.cur ≠ [] then
            (⟨s.chunks ++ [createChunkDict wcount u s5 now
              (joinSep nnSep s.cur) s.idx doc p], s.cur, s.curTok,
              s.idx + 1⟩ : PlainState)
           else s) →
          ∀ c ∈ st1.chunks, wcount c.content ≤ maxT + max 1 (ot / 2) := by
        intro st1 hdef
        by_cases h2 : s.cur = []
        · rw [if_neg (fun hx => hx h2)] at hdef
          rw [hdef]; exact hchunks
        · rw [if_pos h2] at hdef
          rw [hdef]
          intro c hc
          rcases List.mem_append.mp hc with h' | h'
          · exact hchunks c h'
          · rw [List.mem_singleton.mp h', createChunkDict_content]
            omega
      by_cases h4 : getOverlapText ot s.cur ≠ []
      · rw [if_pos h4]
        refine ⟨by trivial, ?_, hstep _ rfl⟩
        have hpair : joinSep nnSep [getOverlapText ot s.cur, a] =
            getOverlapText ot s.cur ++ nnSep ++ a := rfl
        have hcons : nnSep ++ a = '\n' :: ('\n' :: a) := rfl
        rw [hpair, List.append_assoc, hcons, wc_append_ws '\n' (by decide),
          wc_cons_ws '\n' (by decide)]
        omega
      · rw [if_neg h4]
        refine ⟨by trivial, ?_, hstep _ rfl⟩
        have hone : joinSep nnSep [a] = a := rfl
        rw [hone]
        omega

theorem chunkPlainText_wc (u s5 : Text → Text) (now : Text)
    (maxT ot : Nat) (hmax : 1 ≤ maxT) (text : Text) (doc : Document)
    (p : Option Nat) :
    ∀ c ∈ chunkPlainText wcount u s5 now maxT ot text doc p,
      wcount c.content ≤ maxT + max 1 (ot / 2) := by
  unfold chunkPlainText
  have h := plainFold_wc_inv u s5 now maxT ot hmax doc p
    (((splitNN text).map stripWs).filter (fun q => q ≠ []))
    ⟨[], [], 0, 0⟩ ⟨rfl, by simp, by simp⟩
  obtain ⟨hq, hle, hchunks⟩ := h
  by_cases h2 : ((((splitNN text).map stripWs).filter
      (fun q => q ≠ [])).foldl (plainStep wcount u s5 now maxT ot doc p)
      ⟨[], [], 0, 0⟩).cur = []
  · rw [if_neg (fun hx => hx h2)]
    exact hchunks
  · rw [if_pos h2]
    intro c hc
    rcases List.mem_append.mp hc with h' | h'
    · exact hchunks c h'
    · rw [List.mem_singleton.mp h', createChunkDict_content, ← hq]
      exact hle

theorem chunkPdfDocument_wc (u s5 : Text → Text) (now : Text)
    (maxT ot : Nat) (hmax : 1 ≤ maxT) (doc : Document) :
    ∀ c ∈ chunkPdfDocument wcount u s5 now maxT ot doc,
      wcount c.content ≤ maxT + max 1 (ot / 2) := by
  unfold chunkPdfDocument
  refine foldl_inv _
    (fun acc : List Chunk =>
      ∀ c ∈ acc, wcount c.content ≤ maxT + max 1 (ot / 2))
    doc.pages [] (by simp) (fun acc page _ hacc => ?_)
  intro c hc
  rcases List.mem_append.mp hc with h' | h'
  · exact hacc c h'
  · exact chunkPlainText_wc u s5 now maxT ot hmax _ doc
      (some page.page_number) c h'

/-- C1 counterexample: the stated bound
`tokenCount(content) ≤ max_tokens_per_chunk` fails for a chunk whose
window was re-seeded with an overlap suffix.  Under the word-count
tokenizer with `max_tokens = 3` and `overlap_tokens = 2` (80%), the
elements `"a b"` and `"c d e"` produce a second (non-table) chunk
`"b c d e"` with 4 tokens — the code even records `token_count = 4` —
exceeding `max_tokens = 3`. -/
theorem createChunks_token_bound_exceeded_cex :
    (createChunks wcount idT idT ⟨3, 80, true⟩ cexSemDoc "T1".data).map
        (fun c => (c.metadata.has_table, wcount c.content,
          c.token_count)) =
      [(false, 2, 2), (false, 4, 4)] ∧ 4 > 3 := by
  decide

/-- C1 (amended): under the whitespace word-count tokenizer, with
`max_tokens ≥ 1` and overlap percentage below 100, every non-table
chunk produced by the chunker — semantic-element, plain-text and
per-page paths alike, including windows re-seeded with an overlap
suffix — satisfies
`tokenCount(content) ≤ max_tokens + max 1 (overlap_tokens / 2)`; the
overlap seed of at most `max 1 (overlap_tokens / 2)` words is the
exact slack by which a re-seeded window may overshoot `max_tokens`. -/
theorem createChunks_nonTable_token_bound_wcount (u s5 : Text → Text)
    (cfg : Config) (doc : Document) (now : Text)
    (hmax : 1 ≤ cfg.maxTokensPerChunk)
    (hpct : cfg.overlapPercentage < 100) :
    ∀ c ∈ createChunks wcount u s5 cfg doc now,
      c.metadata.has_table = false →
      wcount c.content ≤ cfg.maxTokensPerChunk +
        max 1 (cfg.maxTokensPerChunk * cfg.overlapPercentage / 100 / 2) := by
  have hot : cfg.maxTokensPerChunk * cfg.overlapPercentage / 100 <
      cfg.maxTokensPerChunk := by
    rw [Nat.div_lt_iff_lt_mul (by norm_num : (0:Nat) < 100)]
    exact mul_lt_mul_of_pos_left hpct (by omega)
  intro c hc htab
  simp only [createChunks] at hc
  by_cases h1 : doc.file_type = some "html".data
  · rw [if_pos h1] at hc
    unfold chunkHtmlDocument at hc
    by_cases h2 : doc.tables ≠ [] ∧ cfg.preserveVerbatim = true
    · rw [if_pos h2] at hc
      rcases List.mem_append.mp hc with h' | h'
      · by_cases h3 : doc.semantic_elements ≠ []
        · rw [if_pos h3] at h'
          exact chunkSemanticElements_wc u s5 now _ _ hmax hot doc _ c h'
        · rw [if_neg h3] at h'
          exact chunkPlainText_wc u s5 now _ _ hmax _ doc none c h'
      · have htrue := createTableChunks_has_table wcount u now
          doc.tables doc c h'
        exact absurd (htab ▸ htrue) Bool.false_ne_true
    · rw [if_neg h2] at hc
      by_cases h3 : doc.semantic_elements ≠ []
      · rw [if_pos h3] at hc
        exact chunkSemanticElements_wc u s5 now _ _ hmax hot doc _ c hc
      · rw [if_neg h3] at hc
        exact chunkPlainText_wc u s5 now _ _ hmax _ doc none c hc
  · rw [if_neg h1] at hc
    by_cases h4 : doc.file_type = some "pdf".data
    · rw [if_pos h4] at hc
      exact chunkPdfDocument_wc u s5 now _ _ hmax doc c hc
    · rw [if_neg h4] at hc
      simp at hc

theorem createChunks_nonTable_token_bound_wcount_witness :
    ((1 : Nat) ≤ 3 ∧ (80 : Nat) < 100) ∧
    ∀ c ∈ createChunks wcount idT idT ⟨3, 80, true⟩ cexSemDoc "T1".data,
      c.metadata.has_table = false →
      wcount c.content ≤ 3 + max 1 (3 * 80 / 100 / 2) :=
  ⟨⟨by decide, by decide⟩,
   createChunks_nonTable_token_bound_wcount idT idT ⟨3, 80, true⟩
     cexSemDoc "T1".data (by decide) (by decide)⟩

theorem splitLargeText_eq_words (tc : Text → Nat) (maxT ot : Nat)
    (t : Text) :
    splitLargeText tc maxT ot t =
      (splitLargeWords tc maxT ot (splitWs t)).map (joinSep spSep) := by
  unfold splitLargeText splitLargeWords
  have h := foldl_rel (splitStep tc maxT ot) (splitWStep tc maxT ot)
    (fun (s : SplitState) (w : SplitWState) =>
      s.chunks = w.chunks.map (joinSep spSep) ∧ s.cur = w.cur ∧
        s.curTok = w.curTok)
    (fun s w a hsw => by
      obtain ⟨hc, hcur, htok⟩ := hsw
      by_cases h1 : s.curTok + tc a ≤ maxT
      · have h1' : w.curTok + tc a ≤ maxT := htok ▸ h1
        simp only [splitStep, splitWStep, if_pos h1, if_pos h1']
        exact ⟨hc, by rw [hcur], by rw [htok]⟩
      · have h1' : ¬ w.curTok + tc a ≤ maxT := htok ▸ h1
        simp only [splitStep, splitWStep, if_neg h1, if_neg h1']
        refine ⟨?_, by rw [hcur], by rw [hcur]⟩
        rw [List.map_append, hc, hcur]
        rfl)
    (splitWs t) ⟨[], [], 0⟩ ⟨[], [], 0⟩ ⟨rfl, rfl, rfl⟩
  obtain ⟨hc, hcur, htok⟩ := h
  by_cases h2 : ((splitWs t).foldl (splitWStep tc maxT ot)
      ⟨[], [], 0⟩).cur = []
  · rw [if_neg (fun hx => hx (by rw [hcur]; exact h2)),
      if_neg (fun hx => hx h2)]
    exact hc
  · rw [if_pos (by rw [hcur]; exact h2), if_pos h2, List.map_append, hc,
      hcur]
    rfl

theorem splitLargeWords_chain (tc : Text → Nat) (maxT ot : Nat)
    (hot : ot ≤ maxT) (ws : List Text) :
    List.Chain' (OvSeeded maxT ot) (splitLargeWords tc maxT ot ws) := by
  unfold splitLargeWords
  have key := foldl_inv (splitWStep tc maxT ot)
    (fun w : SplitWState => List.Chain' (OvSeeded maxT ot) w.chunks ∧
      ∀ x, w.chunks.getLast? = some x →
        OvSeeded maxT ot x w.cur ∧ ovCount maxT ot x ≤ w.cur.length)
    ws ⟨[], [], 0⟩ ⟨List.chain'_nil, by simp⟩ ?step
  case step =>
    intro s a _ hP
    obtain ⟨hch, hlast⟩ := hP
    by_cases h1 : s.curTok + tc a ≤ maxT
    · simp only [splitWStep, if_pos h1]
      refine ⟨hch, fun x hx => ?_⟩
      obtain ⟨hseed, hlen⟩ := hlast x hx
      constructor
      · unfold OvSeeded at hseed ⊢
        rw [List.take_append_of_le_length hlen]
        exact hseed
      · simp only [List.length_append, List.length_singleton]
        omega
    · simp only [splitWStep, if_neg h1]
      have hchain2 : List.Chain' (OvSeeded maxT ot)
          (s.chunks ++ [s.cur]) := by
        rw [List.chain'_append]
        refine ⟨hch, List.chain'_singleton s.cur, fun x hx y hy => ?_⟩
        rw [List.head?_cons, Option.mem_some_iff] at hy
        subst hy
        exact (hlast x (by simpa using hx)).1
      have hlast2 : (s.chunks ++ [s.cur]).getLast? = some s.cur :=
        List.getLast?_concat _
      have how : s.cur.length * ot / maxT ≤ s.cur.length := by
        rcases Nat.eq_zero_or_pos maxT with hz | hpos
        · simp [hz]
        · calc s.cur.length * ot / maxT ≤ s.cur.length * maxT / maxT :=
              Nat.div_le_div_right (Nat.mul_le_mul_left _ hot)
            _ = s.cur.length := Nat.mul_div_cancel _ hpos
      by_cases h2 : s.cur.length * ot / maxT ≠ 0
      · rw [if_pos h2]
        refine ⟨hchain2, fun x hx => ?_⟩
        rw [hlast2, Option.some_inj] at hx
        subst hx
        have hdlen : (s.cur.drop
            (s.cur.length - s.cur.length * ot / maxT)).length =
            s.cur.length * ot / maxT := by
          rw [List.length_drop]
          exact Nat.sub_sub_self how
        constructor
        · unfold OvSeeded ovCount
          rw [List.take_append_of_le_length (le_of_eq hdlen.symm)]
          exact List.take_of_length_le (le_of_eq hdlen)
        · unfold ovCount
          simp only [List.length_append, List.length_singleton]
          omega
      · rw [if_neg h2]
        refine ⟨hchain2, fun x hx => ?_⟩
        rw [hlast2, Option.some_inj] at hx
        subst hx
        have hz : ovCount maxT ot s.cur = 0 := by
          unfold ovCount
          omega
        constructor
        · unfold OvSeeded
          rw [hz]
          simp
        · rw [hz]
          omega
  obtain ⟨hch, hlast⟩ := key
  by_cases h2 : (ws.foldl (splitWStep tc maxT ot) ⟨[], [], 0⟩).cur = []
  · rw [if_neg (fun hx => hx h2)]
    exact hch
  · rw [if_pos h2]
    rw [List.chain'_append]
    refine ⟨hch, List.chain'_singleton _, fun x hx y hy => ?_⟩
    rw [List.head?_cons, Option.mem_some_iff] at hy
    subst hy
    exact (hlast x (by simpa using hx)).1

theorem wordWFold_partition (tc : Text → Nat) (maxT : Nat) :
    ∀ (ws : List Text) (st : WordWState),
      (ws.foldl (wordWStep tc maxT) st).chunks.flatten ++
        (ws.foldl (wordWStep tc maxT) st).cur =
      st.chunks.flatten ++ st.cur ++ ws := by
  intro ws
  induction ws with
  | nil => intro st; simp
  | cons a ws ih =>
    intro st
    rw [List.foldl_cons, ih (wordWStep tc maxT st a)]
    by_cases h1 : st.curTok + tc (a ++ spSep) ≤ maxT
    · simp only [wordWStep, if_pos h1]
      simp
    · by_cases h2 : st.cur ≠ []
      · simp only [wordWStep, if_neg h1, if_pos h2]
        simp
      · simp only [wordWStep, if_neg h1, if_neg h2]
        have : st.cur = [] := by
          by_contra hx
          exact h2 hx
        simp [this]

theorem wordSplit_partition (tc : Text → Nat) (maxT : Nat)
    (ws : List Text) :
    (wordSplitWords tc maxT ws).1.flatten ++
      (wordSplitWords tc maxT ws).2 = ws := by
  unfold wordSplitWords
  have h := wordWFold_partition tc maxT ws ⟨[], [], 0⟩
  simpa using h

theorem wordSplit_bound (maxT : Nat) (hmax : 1 ≤ maxT) (ws : List Text)
    (hws : ∀ w ∈ ws, w ≠ [] ∧ ∀ ch ∈ w, ch.isWhitespace = false) :
    (∀ cw ∈ (wordSplitWords wcount maxT ws).1, cw.length ≤ maxT) ∧
    (wordSplitWords wcount maxT ws).2.length ≤ maxT := by
  unfold wordSplitWords
  have key := foldl_inv (wordWStep wcount maxT)
    (fun w : WordWState => w.curTok = w.cur.length ∧ w.curTok ≤ maxT ∧
      ∀ cw ∈ w.chunks, cw.length ≤ maxT)
    ws ⟨[], [], 0⟩ ⟨rfl, by simp, by simp⟩ ?step
  case step =>
    intro s a ha hP
    obtain ⟨hlen, hle, hch⟩ := hP
    have ha1 : wcount (a ++ spSep) = 1 :=
      wc_word_sp a (hws a ha).1 (hws a ha).2
    by_cases h1 : s.curTok + wcount (a ++ spSep) ≤ maxT
    · simp only [wordWStep, if_pos h1]
      exact ⟨by simp [hlen, ha1], by omega, hch⟩
    · by_cases h2 : s.cur ≠ []
      · simp only [wordWStep, if_neg h1, if_pos h2]
        refine ⟨by simp [ha1], by omega, ?_⟩
        intro cw hcw
        rcases List.mem_append.mp hcw with h' | h'
        · exact hch cw h'
        · rw [List.mem_singleton.mp h']
          omega
      · simp only [wordWStep, if_neg h1, if_neg h2]
        exact ⟨by simp [ha1], by omega, hch⟩
  obtain ⟨hlen, hle, hch⟩ := key
  refine ⟨hch, ?_⟩
  show ((ws.foldl (wordWStep wcount maxT) ⟨[], [], 0⟩).cur).length ≤ maxT
  omega

theorem enum_map_concat {α β : Type _} (l : List α) (x : α)
    (f : Nat × α → β) :
    ((l ++ [x]).enum).map f = l.enum.map f ++ [f (l.length, x)] := by
  unfold List.enum
  rw [List.enumFrom_append]
  simp

theorem wordFold_link (u s5 : Text → Text) (now : Text) (maxT : Nat)
    (doc : Document) (p : Option Nat) (base : List Chunk) (b : Nat)
    (ws : List Text) (s : WordState) (t : WordWState)
    (hc : s.chunks = base ++ t.chunks.enum.map (fun iws =>
      createChunkDict wcount u s5 now (joinSep spSep iws.2) (b + iws.1)
        doc p))
    (hi : s.idx = b + t.chunks.length) (hw : s.wchunk = t.cur)
    (ht : s.wtok = t.curTok) :
    (ws.foldl (wordStep wcount u s5 now maxT doc p) s).chunks =
      base ++ ((ws.foldl (wordWStep wcount maxT) t).chunks.enum).map
        (fun iws => createChunkDict wcount u s5 now (joinSep spSep iws.2)
          (b + iws.1) doc p) ∧
    (ws.foldl (wordStep wcount u s5 now maxT doc p) s).idx =
      b + (ws.foldl (wordWStep wcount maxT) t).chunks.length ∧
    (ws.foldl (wordStep wcount u s5 now maxT doc p) s).wchunk =
      (ws.foldl (wordWStep wcount maxT) t).cur ∧
    (ws.foldl (wordStep wcount u s5 now maxT doc p) s).wtok =
      (ws.foldl (wordWStep wcount maxT) t).curTok := by
  refine foldl_rel (wordStep wcount u s5 now maxT doc p)
    (wordWStep wcount maxT)
    (fun (s' : WordState) (t' : WordWState) =>
      s'.chunks = base ++ (t'.chunks.enum).map (fun iws =>
        createChunkDict wcount u s5 now (joinSep spSep iws.2) (b + iws.1)
          doc p) ∧
      s'.idx = b + t'.chunks.length ∧ s'.wchunk = t'.cur ∧
      s'.wtok = t'.curTok)
    (fun s' t' a h => ?_) ws s t ⟨hc, hi, hw, ht⟩
  obtain ⟨hc', hi', hw', ht'⟩ := h
  by_cases h1 : s'.wtok + wcount (a ++ spSep) ≤ maxT
  · have h1' : t'.curTok + wcount (a ++ spSep) ≤ maxT := ht' ▸ h1
    simp only [wordStep, wordWStep, if_pos h1, if_pos h1']
    exact ⟨hc', hi', by rw [hw'], by rw [ht']⟩
  · have h1' : ¬ t'.curTok + wcount (a ++ spSep) ≤ maxT := ht' ▸ h1
    by_cases h2 : s'.wchunk ≠ []
    · have h2' : t'.cur ≠ [] := hw' ▸ h2
      simp only [wordStep, wordWStep, if_neg h1, if_neg h1', if_pos h2,
        if_pos h2']
      refine ⟨?_, ?_, by trivial, by trivial⟩
      · rw [hc', hw', hi', enum_map_concat, ← List.append_assoc]
      · rw [hi']
        simp [Nat.add_assoc]
    · have h2' : ¬ t'.cur ≠ [] := hw' ▸ h2
      simp only [wordStep, wordWStep, if_neg h1, if_neg h1', if_neg h2,
        if_neg h2']
      exact ⟨hc', hi', by trivial, by trivial⟩

theorem wordWFold_cur_ne (tc : Text → Nat) (maxT : Nat) :
    ∀ (ws : List Text) (st : WordWState), ws ≠ [] →
      (ws.foldl (wordWStep tc maxT) st).cur ≠ [] := by
  intro ws
  induction ws with
  | nil => intro st h; exact absurd rfl h
  | cons a ws ih =>
    intro st _
    rw [List.foldl_cons]
    by_cases hws : ws = []
    · subst hws
      show (wordWStep tc maxT st a).cur ≠ []
      unfold wordWStep
      by_cases h1 : st.curTok + tc (a ++ spSep) ≤ maxT
      · rw [if_pos h1]; simp
      · rw [if_neg h1]
        by_cases h2 : st.cur ≠ []
        · rw [if_pos h2]; simp
        · rw [if_neg h2]; simp
    · exact ih (wordWStep tc maxT st a) hws

theorem chunkPlainText_single_para (u s5 : Text → Text) (now : Text)
    (maxT ot : Nat) (doc : Document) (p : Option Nat) (t : Text)
    (hmax : 1 ≤ maxT) (hstrip : stripWs t = t) (hnn : splitNN t = [t])
    (hne : t ≠ []) (hbig : wcount t > maxT) :
    chunkPlainText wcount u s5 now maxT ot t doc p =
      ((wordSplitWords wcount maxT (splitWs t)).1.enum).map
        (fun iws => createChunkDict wcount u s5 now
          (joinSep spSep iws.2) iws.1 doc p) ++
      [createChunkDict wcount u s5 now
        (joinSep spSep (wordSplitWords wcount maxT (splitWs t)).2)
        ((wordSplitWords wcount maxT (splitWs t)).1.length) doc p] := by
  have hpar : (((splitNN t).map stripWs).filter (fun q => q ≠ [])) =
      [t] := by
    rw [hnn]
    simp [hstrip, hne]
  unfold chunkPlainText
  rw [hpar]
  dsimp only
  rw [List.foldl_cons, List.foldl_nil]
  simp only [plainStep, if_pos hbig]
  rw [if_neg (fun hx : ([] : List Text) ≠ [] => hx rfl)]
  dsimp only
  have hwsne : splitWs t ≠ [] := by
    intro hx
    have h0 : wcount t = 0 := by unfold wcount; rw [hx]; rfl
    omega
  have hlink := wordFold_link u s5 now maxT doc p [] 0 (splitWs t)
    ⟨[], 0, [], 0⟩ ⟨[], [], 0⟩ (by simp) (by simp) rfl rfl
  obtain ⟨hc, hi, hw, ht⟩ := hlink
  have hcurne := wordWFold_cur_ne wcount maxT (splitWs t) ⟨[], [], 0⟩
    hwsne
  have hFw : (List.foldl (wordStep wcount u s5 now maxT doc p)
      (⟨[], 0, [], 0⟩ : WordState) (splitWs t)).wchunk ≠ [] := by
    rw [hw]; exact hcurne
  rw [if_pos hFw]
  dsimp only
  rw [if_pos (List.cons_ne_nil _ _)]
  have hjoin : ∀ x : Text, joinSep nnSep [x] = x := fun x => rfl
  rw [hc, hjoin, hi, hw]
  simp only [wordSplitWords]
  simp [Nat.zero_add]

/-- C7 counterexample: on the plain-text fallback path, the word
sub-chunks of an oversized paragraph share no overlap at all.  With
`max_tokens = 2`, the paragraph `"a b c d"` (4 tokens) splits into
`"a b"` and `"c d"`, and the second sub-chunk shares no non-empty
word-overlap prefix with the end of its predecessor. -/
theorem plain_word_split_no_overlap_cex :
    (chunkPlainText wcount idT idT "T1".data 2 1 "a b c d".data
        cexPlainDoc none).map (fun c => c.content) =
      ["a b".data, "c d".data] ∧
    wcount "a b c d".data > 2 ∧
    noWordOverlapB "a b".data "c d".data = true := by
  decide

/-- C7 (amended): an oversized unit is split into whitespace-word
sub-chunks, but the two paths differ.  On the semantic-element path
(`_split_large_text`), under the word-count tokenizer with
`1 ≤ max_tokens` and `overlap_tokens < max_tokens`, every sub-chunk has
at most `max_tokens` tokens and each sub-chunk after the first begins
with exactly the trailing `⌊len(prev_words)·overlap_tokens/max_tokens⌋`
words of its predecessor — an overlap that is empty whenever that floor
is zero.  On the plain-text paragraph fallback path the sub-chunks carry
no overlap at all: their word sequences are consecutive disjoint
segments whose concatenation (with the residual chunk) is the
paragraph's word sequence, each within `max_tokens`, and for a
single-paragraph oversized text the chunker emits exactly these word
chunks followed by the residual chunk. -/
theorem oversized_unit_word_split_overlap (u s5 : Text → Text)
    (now : Text) (maxT ot : Nat) (doc : Document) (p : Option Nat)
    (t : Text) (hmax : 1 ≤ maxT) (hot : ot < maxT)
    (hstrip : stripWs t = t) (hnn : splitNN t = [t]) (hne : t ≠ [])
    (hbig : wcount t > maxT) :
    (∀ ch ∈ splitLargeText wcount maxT ot t, wcount ch ≤ maxT) ∧
    splitLargeText wcount maxT ot t =
      (splitLargeWords wcount maxT ot (splitWs t)).map (joinSep spSep) ∧
    List.Chain' (OvSeeded maxT ot)
      (splitLargeWords wcount maxT ot (splitWs t)) ∧
    ((wordSplitWords wcount maxT (splitWs t)).1.flatten ++
      (wordSplitWords wcount maxT (splitWs t)).2 = splitWs t) ∧
    (∀ cw ∈ (wordSplitWords wcount maxT (splitWs t)).1,
      cw.length ≤ maxT) ∧
    (wordSplitWords wcount maxT (splitWs t)).2.length ≤ maxT ∧
    chunkPlainText wcount u s5 now maxT ot t doc p =
      ((wordSplitWords wcount maxT (splitWs t)).1.enum).map
        (fun iws => createChunkDict wcount u s5 now
          (joinSep spSep iws.2) iws.1 doc p) ++
      [createChunkDict wcount u s5 now
        (joinSep spSep (wordSplitWords wcount maxT (splitWs t)).2)
        ((wordSplitWords wcount maxT (splitWs t)).1.length) doc p] :=
  ⟨splitLargeText_bound maxT ot hmax hot t,
   splitLargeText_eq_words wcount maxT ot t,
   splitLargeWords_chain wcount maxT ot (le_of_lt hot) (splitWs t),
   wordSplit_partition wcount maxT (splitWs t),
   (wordSplit_bound maxT hmax (splitWs t)
     (fun w hw => mem_splitWs_facts t w hw)).1,
   (wordSplit_bound maxT hmax (splitWs t)
     (fun w hw => mem_splitWs_facts t w hw)).2,
   chunkPlainText_single_para u s5 now maxT ot doc p t hmax hstrip hnn
     hne hbig⟩

theorem oversized_unit_word_split_overlap_witness :
    (stripWs "a b c d".data = "a b c d".data ∧
     splitNN "a b c d".data = ["a b c d".data] ∧
     wcount "a b c d".data > 2) ∧
    ((wordSplitWords wcount 2 (splitWs "a b c d".data)).1.flatten ++
      (wordSplitWords wcount 2 (splitWs "a b c d".data)).2 =
      splitWs "a b c d".data) ∧
    List.Chain' (OvSeeded 2 1)
      (splitLargeWords wcount 2 1 (splitWs "a b c d".data)) :=
  ⟨⟨by decide, by decide, by decide⟩,
   (oversized_unit_word_split_overlap idT idT "T1".data 2 1 cexPlainDoc
      none "a b c d".data (by decide) (by decide) (by decide) (by decide)
      (by decide) (by decide)).2.2.2.1,
   (oversized_unit_word_split_overlap idT idT "T1".data 2 1 cexPlainDoc
      none "a b c d".data (by decide) (by decide) (by decide) (by decide)
      (by decide) (by decide)).2.2.1⟩

theorem ite_plainState_chunks {q : Prop} [Decidable q]
    {P : Chunk → Prop} (A B : PlainState)
    (hA : ∀ x ∈ A.chunks, P x) (hB : ∀ x ∈ B.chunks, P x) :
    ∀ x ∈ (if q then A else B).chunks, P x := by
  by_cases h : q
  · rw [if_pos h]; exact hA
  · rw [if_neg h]; exact hB

theorem wordFold_not_table (tc : Text → Nat) (u s5 : Text → Text)
    (now : Text) (maxT : Nat) (doc : Document) (p : Option Nat)
    (ws : List Text) (st : WordState)
    (h : ∀ c ∈ st.chunks, c.metadata.has_table = false) :
    ∀ c ∈ (ws.foldl (wordStep tc u s5 now maxT doc p) st).chunks,
      c.metadata.has_table = false := by
  refine foldl_inv (wordStep tc u s5 now maxT doc p)
    (fun s : WordState => ∀ c ∈ s.chunks, c.metadata.has_table = false)
    ws st h (fun s a _ hP => ?_)
  by_cases h1 : s.wtok + tc (a ++ spSep) ≤ maxT
  · simp only [wordStep, if_pos h1]
    exact hP
  · by_cases h2 : s.wchunk ≠ []
    · simp only [wordStep, if_neg h1, if_pos h2]
      intro c hc
      rcases List.mem_append.mp hc with h' | h'
      · exact hP c h'
      · rw [List.mem_singleton.mp h', createChunkDict_not_table]
    · simp only [wordStep, if_neg h1, if_neg h2]
      exact hP

theorem plainFold_not_table (tc : Text → Nat) (u s5 : Text → Text)
    (now : Text) (maxT ot : Nat) (doc : Document) (p : Option Nat)
    (paras : List Text) (st : PlainState)
    (h : ∀ c ∈ st.chunks, c.metadata.has_table = false) :
    ∀ c ∈ (paras.foldl (plainStep tc u s5 now maxT ot doc p)
        st).chunks,
      c.metadata.has_table = false := by
  refine foldl_inv (plainStep tc u s5 now maxT ot doc p)
    (fun s : PlainState => ∀ c ∈ s.chunks, c.metadata.has_table = false)
    paras st h (fun s a _ hP => ?_)
  have hst1 : ∀ st1 : PlainState,
      (st1 = if s.cur ≠ [] then
        (⟨s.chunks ++ [createChunkDict tc u s5 now
          (joinSep nnSep s.cur) s.idx doc p], [], 0, s.idx + 1⟩ :
          PlainState)
       else s) →
      ∀ c ∈ st1.chunks, c.metadata.has_table = false := by
    intro st1 hdef
    by_cases h2 : s.cur = []
    · rw [if_neg (fun hx => hx h2)] at hdef
      rw [hdef]; exact hP
    · rw [if_pos h2] at hdef
      rw [hdef]
      intro c hc
      rcases List.mem_append.mp hc with h' | h'
      · exact hP c h'
      · rw [List.mem_singleton.mp h', createChunkDict_not_table]
  by_cases h1 : tc a > maxT
  · simp only [plainStep, if_pos h1]
    refine ite_plainState_chunks _ _ ?_ ?_
    · exact wordFold_not_table tc u s5 now maxT doc p (splitWs a) _
        (hst1 _ rfl)
    · exact wordFold_not_table tc u s5 now maxT doc p (splitWs a) _
        (hst1 _ rfl)
  · by_cases h3 : s.curTok + tc a ≤ maxT
    · simp only [plainStep, if_neg h1, if_pos h3]
      exact hP
    · simp only [plainStep, if_neg h1, if_neg h3]
      have hflush : ∀ st1 : PlainState,
          (st1 = if s.cur ≠ [] then
            (⟨s.chunks ++ [createChunkDict tc u s5 now
              (joinSep nnSep s.cur) s.idx doc p], s.cur, s.curTok,
              s.idx + 1⟩ : PlainState)
           else s) →
          ∀ c ∈ st1.chunks, c.metadata.has_table = false := by
        intro st1 hdef
        by_cases h2 : s.cur = []
        · rw [if_neg (fun hx => hx h2)] at hdef
          rw [hdef]; exact hP
        · rw [if_pos h2] at hdef
          rw [hdef]
          intro c hc
          rcases List.mem_append.mp hc with h' | h'
          · exact hP c h'
          · rw [List.mem_singleton.mp h', createChunkDict_not_table]
      exact hflush _ rfl

theorem chunkPlainText_not_table (tc : Text → Nat) (u s5 : Text → Text)
    (now : Text) (maxT ot : Nat) (text : Text) (doc : Document)
    (p : Option Nat) :
    ∀ c ∈ chunkPlainText tc u s5 now maxT ot text doc p,
      c.metadata.has_table = false := by
  unfold chunkPlainText
  have h := plainFold_not_table tc u s5 now maxT ot doc p
    (((splitNN text).map stripWs).filter (fun q => q ≠ []))
    ⟨[], [], 0, 0⟩ (by simp)
  by_cases h2 : ((((splitNN text).map stripWs).filter
      (fun q => q ≠ [])).foldl (plainStep tc u s5 now maxT ot doc p)
      ⟨[], [], 0, 0⟩).cur = []
  · rw [if_neg (fun hx => hx h2)]
    exact h
  · rw [if_pos h2]
    intro c hc
    rcases List.mem_append.mp hc with h' | h'
    · exact h c h'
    · rw [List.mem_singleton.mp h', createChunkDict_not_table]

theorem chunkPdfDocument_not_table (tc : Text → Nat)
    (u s5 : Text → Text) (now : Text) (maxT ot : Nat) (doc : Document) :
    ∀ c ∈ chunkPdfDocument tc u s5 now maxT ot doc,
      c.metadata.has_table = false := by
  unfold chunkPdfDocument
  refine foldl_inv _
    (fun acc : List Chunk => ∀ c ∈ acc, c.metadata.has_table = false)
    doc.pages [] (by simp) (fun acc page _ hacc => ?_)
  intro c hc
  rcases List.mem_append.mp hc with h' | h'
  · exact hacc c h'
  · exact chunkPlainText_not_table tc u s5 now maxT ot _ doc
      (some page.page_number) c h'

/-- C6 counterexample: a PDF document declaring a table (as the parser
produces for PDFs) gets no table chunk at all — `_chunk_pdf_document`
never invokes `_create_table_chunks`.  With verbatim preservation on,
`cexPdfTableDoc` (one page, one table) yields a single text chunk and
no chunk with `has_table = true` or the table's verbatim content. -/
theorem pdf_tables_dropped_cex :
    cexPdfTableDoc.tables ≠ [] ∧
    (createChunks wcount idT idT ⟨10, 20, true⟩ cexPdfTableDoc
        "T1".data).map (fun c => (c.content, c.metadata.has_table)) =
      [("hello".data, false)] := by
  decide

/-- C6 (amended): the table contract holds only on the HTML path.  For
an HTML document declaring tables, with verbatim preservation enabled,
exactly one chunk per table is appended after the windowed text chunks
— content equal to the table's verbatim rendering, `has_table = true`,
table index / row / column metadata, token count computed normally with
no size cap (`createTableChunks` never consults `max_tokens`), and no
error raised.  For a PDF document declaring tables, however, no table
chunk is emitted at all: every chunk of the per-page path has
`has_table = false`, because `_chunk_pdf_document` never invokes the
table builder. -/
theorem tableChunks_html_only (tc : Text → Nat) (u s5 : Text → Text)
    (cfg : Config) (doc : Document) (now : Text)
    (ht : doc.tables ≠ []) (hp : cfg.preserveVerbatim = true) :
    (doc.file_type = some "html".data →
      createChunks tc u s5 cfg doc now =
        (if doc.semantic_elements ≠ [] then
          chunkSemanticElements tc u s5 now cfg.maxTokensPerChunk
            (cfg.maxTokensPerChunk * cfg.overlapPercentage / 100)
            doc.semantic_elements doc
        else
          chunkPlainText tc u s5 now cfg.maxTokensPerChunk
            (cfg.maxTokensPerChunk * cfg.overlapPercentage / 100)
            doc.plain_text doc none) ++
        createTableChunks tc u now doc.tables doc ∧
      (createTableChunks tc u now doc.tables doc).length =
        doc.tables.length ∧
      (createTableChunks tc u now doc.tables doc).map
          (fun c => c.content) =
        doc.tables.map (fun t => t.markdown.getD (t.json.getD [])) ∧
      (createTableChunks tc u now doc.tables doc).map
          (fun c => c.metadata.has_table) =
        doc.tables.map (fun _ => true) ∧
      (createTableChunks tc u now doc.tables doc).map
          (fun c => c.metadata.table_index) =
        (List.range doc.tables.length).map some ∧
      (createTableChunks tc u now doc.tables doc).map
          (fun c => (c.metadata.table_rows, c.metadata.table_columns)) =
        doc.tables.map (fun t => (t.rows, t.columns)) ∧
      (createTableChunks tc u now doc.tables doc).map
          (fun c => c.token_count) =
        doc.tables.map
          (fun t => tc (t.markdown.getD (t.json.getD [])))) ∧
    (doc.file_type = some "pdf".data →
      ∀ c ∈ createChunks tc u s5 cfg doc now,
        c.metadata.has_table = false) := by
  constructor
  · intro hf
    exact tableChunks_verbatim_one_per_table tc u s5 cfg doc now hf ht hp
  · intro hf
    have hne : doc.file_type ≠ some "html".data := by
      rw [hf]
      intro hx
      exact absurd (Option.some_inj.mp hx) (by decide)
    simp only [createChunks]
    rw [if_neg hne, if_pos hf]
    exact chunkPdfDocument_not_table tc u s5 now _ _ doc

theorem tableChunks_html_only_witness :
    ((createTableChunks wcount idT "T1".data wTableDoc.tables
        wTableDoc).map (fun c => c.content) =
      wTableDoc.tables.map (fun t => t.markdown.getD (t.json.getD []))) ∧
    ∀ c ∈ createChunks wcount idT idT ⟨10, 20, true⟩ cexPdfTableDoc
        "T1".data, c.metadata.has_table = false :=
  ⟨((tableChunks_html_only wcount idT idT ⟨2, 50, true⟩ wTableDoc
      "T1".data (by decide) (by decide)).1 (by decide)).2.2.1,
   (tableChunks_html_only wcount idT idT ⟨10, 20, true⟩ cexPdfTableDoc
      "T1".data (by decide) (by decide)).2 (by decide)⟩
